import Mathlib

/-!
Verification development for the mem-cache repository: a trie-shaped in-memory
cache with compound keys, aggregate size/count bookkeeping, access-time
tracking, scoped partial views and capacity-triggered LRU pruning.

The embedding mirrors the TypeScript source (`MemCache.ts`, `CachePartial.ts`,
`types.ts`, `util.ts`):

* a trie node is a tagged union: a `Leaf` is the triple
  `[value, atime, size]` and a `Branch` is the quadruple
  `[childMap, atime, size, leafCount]`; the child map is a JS `Map`, i.e. an
  insertion-ordered association list with unique keys;
* dates (`new Date()`) are modelled as natural-number timestamps; every public
  operation takes the current time `now` explicitly;
* the external byte-size estimator (`object-sizeof`) is an arbitrary function
  `estimate : V -> Nat`;
* JavaScript exceptions (which arise when a traversal walks through a `Leaf`,
  because the value slot of a leaf has no `Map` interface) are modelled with
  `Except`, whose `error` payload carries the tree state at the moment the
  exception unwinds (mutations already performed stay in place);
* the `pruned` callback is not modelled; `prune` instead returns the list of
  collected `(key, atime, size)` rows, which is what the loop assembles.
-/

set_option maxHeartbeats 1000000
set_option linter.unusedSectionVars false

namespace MemCacheSpec

/-- A trie node, `types.ts`: `Leaf<V> = [value, atime, size]` (3-tuple) and
`Branch<K, V> = [map, atime, size, count]` (4-tuple).  `util.ts` discriminates
on the tuple length.  The child map of a branch is an insertion-ordered
association list with unique keys, the model of a JS `Map`. -/
inductive Node (κ V : Type) where
  | leaf (value : V) (atime : Nat) (size : Int)
  | branch (children : List (κ × Node κ V)) (atime : Nat) (size : Int) (count : Int)

namespace Node

variable {κ V : Type}

/-- The `size` slot (`node[2]`), present in both variants. -/
def sizeN : Node κ V → Int
  | .leaf _ _ s => s
  | .branch _ _ s _ => s

/-- The `atime` slot (`node[1]`), present in both variants. -/
def atimeN : Node κ V → Nat
  | .leaf _ a _ => a
  | .branch _ a _ _ => a

/-- The aggregate leaf-count slot of a branch (`branch[3]`).  A leaf has no
such slot; the source never reads index 3 of a leaf through this path. -/
def countN : Node κ V → Int
  | .leaf _ _ _ => 0
  | .branch _ _ _ c => c

/-- The discriminant check `util.ts`: `isLeaf(node) = node.length === 3`. -/
def isLeafN : Node κ V → Bool
  | .leaf _ _ _ => true
  | .branch _ _ _ _ => false

/-- The discriminant check `util.ts`: `isBranch(node) = node.length === 4`. -/
def isBranchN : Node κ V → Bool
  | .leaf _ _ _ => false
  | .branch _ _ _ _ => true

/-- Write the `atime` slot (`node[1] = date`). -/
def setAtime : Node κ V → Nat → Node κ V
  | .leaf v _ s, t => .leaf v t s
  | .branch m _ s c, t => .branch m t s c

end Node

section Maps

variable {κ V : Type} [DecidableEq κ]

/-- `Map.get`: first (only) entry with the given key. -/
def mapGet : List (κ × Node κ V) → κ → Option (Node κ V)
  | [], _ => none
  | (k', n) :: rest, k => if k' = k then some n else mapGet rest k

/-- `Map.set`: replace in place when the key is present (keeping its position
in the insertion order), append at the end otherwise. -/
def mapSet : List (κ × Node κ V) → κ → Node κ V → List (κ × Node κ V)
  | [], k, n => [(k, n)]
  | (k', n') :: rest, k, n =>
      if k' = k then (k, n) :: rest else (k', n') :: mapSet rest k n

/-- `Map.delete`: remove the entry with the given key, if any. -/
def mapDelete : List (κ × Node κ V) → κ → List (κ × Node κ V)
  | [], _ => []
  | (k', n') :: rest, k => if k' = k then rest else (k', n') :: mapDelete rest k

end Maps

section Observers

variable {κ V : Type} [DecidableEq κ]

open Node

/-- Sum of the `size` slots of the entries of a child map.  This is the
right-hand side of invariant 1 of the spec: a leaf child contributes its stored
size, a branch child its aggregate size. -/
def sumSizes : List (κ × Node κ V) → Int
  | [] => 0
  | (_, n) :: rest => n.sizeN + sumSizes rest

mutual
/-- Decidable check of the size invariant: every branch's `size` slot equals
the sum of its children's `size` slots, and no `size` slot is negative. -/
def sizeOkB : Node κ V → Bool
  | .leaf _ _ s => decide (0 ≤ s)
  | .branch m _ s _ => decide (s = sumSizes m) && sizeOkL m
/-- `sizeOkB` on every entry of a child map. -/
def sizeOkL : List (κ × Node κ V) → Bool
  | [] => true
  | (_, n) :: rest => sizeOkB n && sizeOkL rest
end

mutual
/-- Number of `Leaf` descendants of a node (a leaf counts itself). -/
def leafCountN : Node κ V → Nat
  | .leaf _ _ _ => 1
  | .branch m _ _ _ => leafCountL m
/-- Number of `Leaf` descendants below the entries of a child map. -/
def leafCountL : List (κ × Node κ V) → Nat
  | [] => 0
  | (_, n) :: rest => leafCountN n + leafCountL rest
end

mutual
/-- Erase every access timestamp in a tree (set the `atime` slots to `0`).
Two trees with equal `stripA` agree on structure, values, sizes and counts. -/
def stripA : Node κ V → Node κ V
  | .leaf v _ s => .leaf v 0 s
  | .branch m _ s c => .branch (stripAL m) 0 s c
/-- `stripA` applied to every entry of a child map. -/
def stripAL : List (κ × Node κ V) → List (κ × Node κ V)
  | [] => []
  | (k, n) :: rest => (k, stripA n) :: stripAL rest
end

/-- Pure observer of the node reached by a key path: descend one component at
a time through branches; `none` when a child is missing or the path runs into
a leaf before the key is exhausted. -/
def nodeAtQ : Node κ V → List κ → Option (Node κ V)
  | n, [] => some n
  | .leaf _ _ _, _ :: _ => none
  | .branch m _ _ _, h :: t =>
      match mapGet m h with
      | none => none
      | some child => nodeAtQ child t

/-- Boolean prefix test on key paths (`p` is an initial segment of `k`). -/
def isPre : List κ → List κ → Bool
  | [], _ => true
  | _ :: _, [] => false
  | a :: as, b :: bs => decide (a = b) && isPre as bs

end Observers

section Engine

variable {κ V : Type} [DecidableEq κ]

open Node

/-- `CachePartial.node`: pure traversal to the node addressed by a key, used
by `sizeof`, `atime` and `partial`.  Stepping into a leaf with components left
reads `.get` off the leaf's value slot, a `TypeError` in the source, modelled
as `Except.error`. -/
def nodeAt : Node κ V → List κ → Except Unit (Option (Node κ V))
  | n, [] => .ok (some n)
  | .leaf _ _ _, _ :: _ => .error ()
  | .branch m _ _ _, h :: t =>
      match mapGet m h with
      | none => .ok none
      | some child => nodeAt child t

/-- `CachePartial.getImpl`: descend along the key, stamping the access time of
every visited node (including the terminal one) when `touch` is set, and
return the terminal node or `none` when a child is missing.  The error payload
is the tree after the mutations already performed (a node's timestamp is
stamped before its children are read, so a leaf hit mid-path keeps its fresh
stamp when the traversal throws). -/
def getImpl : Node κ V → List κ → Bool → Nat → Except (Node κ V) (Option (Node κ V) × Node κ V)
  | node, key, touch, now =>
    let node1 := if touch then node.setAtime now else node
    match key with
    | [] => .ok (some node1, node1)
    | h :: t =>
      match node1 with
      | .leaf v a s => .error (.leaf v a s)
      | .branch m a s c =>
        match mapGet m h with
        | none => .ok (none, .branch m a s c)
        | some child =>
          match getImpl child t touch now with
          | .error child' => .error (.branch (mapSet m h child') a s c)
          | .ok (r, child') => .ok (r, .branch (mapSet m h child') a s c)

/-- `MemCache.insertImpl`: walk/create branches along all but the last key
component; at the final component replace or create the leaf (unless `replace`
is false and an entry exists) and propagate the size delta, the leaf-count
delta and the insertion timestamp through every branch on the path.  Returns
`(size?, diff, inserted)` and the updated tree; an empty key is an immediate
no-op.  Walking into an existing leaf mid-path reads `.get` off its value
slot, an exception in the source, modelled as `Except.error` carrying the tree
at that point. -/
def insertImpl (est : V → Nat) :
    Node κ V → List κ → V → Nat → Bool → Except (Node κ V) (Option Int × Int × Bool × Node κ V)
  | node, [], _, _, _ => .ok (none, 0, false, node)
  | node, h :: t, value, date, replace =>
    match node with
    | .leaf v a s => .error (.leaf v a s)
    | .branch m a s c =>
      match t with
      | [] =>
        let existing := mapGet m h
        if replace = false ∧ existing.isSome then .ok (none, 0, false, .branch m a s c)
        else
          let size : Int := (est value : Int)
          let diff : Int := size - (match existing with | some e => e.sizeN | none => 0)
          let inserted := existing.isNone
          .ok (some size, diff, inserted,
               .branch (mapSet m h (.leaf value date size)) date (s + diff)
                 (c + if inserted then 1 else 0))
      | _ :: _ =>
        match mapGet m h with
        | some child =>
          match insertImpl est child t value date replace with
          | .error child' => .error (.branch (mapSet m h child') a s c)
          | .ok (size, diff, inserted, child') =>
            .ok (size, diff, inserted,
                 .branch (mapSet m h child') date (s + diff)
                   (c + if inserted then 1 else 0))
        | none =>
          let child : Node κ V := .branch [] date 0 0
          let m1 := mapSet m h child
          match insertImpl est child t value date replace with
          | .error child' => .error (.branch (mapSet m1 h child') a s c)
          | .ok (size, diff, inserted, child') =>
            .ok (size, diff, inserted,
                 .branch (mapSet m1 h child') date (s + diff)
                   (c + if inserted then 1 else 0))

/-- `MemCache.deleteImpl`: remove the node (leaf or whole subtree) addressed
by the key from its parent's child map and subtract its `size` slot, and its
leaf count (`entry[3]` for a branch, `1` for a leaf), from every branch on the
path.  Returns the removed node or `none`; access timestamps are never
written.  Walking into a leaf mid-path throws in the source, modelled as
`Except.error`. -/
def deleteImpl : Node κ V → List κ → Except (Node κ V) (Option (Node κ V) × Node κ V)
  | node, [] => .ok (none, node)
  | node, h :: t =>
    match node with
    | .leaf v a s => .error (.leaf v a s)
    | .branch m a s c =>
      match t with
      | [] =>
        match mapGet m h with
        | none => .ok (none, .branch m a s c)
        | some entry =>
          .ok (some entry,
               .branch (mapDelete m h) a (s - entry.sizeN)
                 (c - (match entry with | .branch _ _ _ ec => ec | .leaf _ _ _ => 1)))
      | _ :: _ =>
        match mapGet m h with
        | none => .ok (none, .branch m a s c)
        | some child =>
          match deleteImpl child t with
          | .error child' => .error (.branch (mapSet m h child') a s c)
          | .ok (none, child') => .ok (none, .branch (mapSet m h child') a s c)
          | .ok (some d, child') =>
            .ok (some d,
                 .branch (mapSet m h child') a (s - d.sizeN)
                   (c - (match d with | .branch _ _ _ ec => ec | .leaf _ _ _ => 1)))

end Engine

section CacheLevel

variable {κ V : Type} [DecidableEq κ]

open Node

/-- The recognized construction options (`types.ts`): `capacity` is stored
already parsed to a byte count (the `byteSize` string parser is an external
collaborator), `values` are the initial entries, `pruneDepth = none` models
the default `Infinity`, and the `pruned` callback is not modelled. -/
structure MemCacheOptions (κ V : Type) where
  capacity : Option Int := none
  values : List (List κ × V) := []
  autoPrune : Bool := true
  autoPruneInterval : Option Nat := none
  pruneDepth : Option Nat := none

/-- The state of a `MemCache` instance: the root node (always a branch) plus
the construction options and the last-prune timestamp. -/
structure Cache (κ V : Type) where
  root : Node κ V
  capacity : Option Int
  lastPruneAt : Nat
  autoPrune : Bool
  autoPruneInterval : Option Nat
  pruneDepth : Option Nat

/-- One row of the flattened prunable-unit list built by `prune`: the key
prefix from the root, the unit's access timestamp and its size slot.  The
payload slot (read only by the `pruned` callback) is not modelled. -/
structure PruneUnit (κ : Type) where
  key : List κ
  atime : Nat
  size : Int
deriving DecidableEq

namespace MemCache

/-- `MemCache.size` accessor: the root's aggregate size slot. -/
def size (c : Cache κ V) : Int := c.root.sizeN

/-- `MemCache.count` accessor (via the root partial): the root's aggregate
leaf-count slot `root[3]`. -/
def count (c : Cache κ V) : Int := c.root.countN

/-- `MemCache.get` (delegating to the root `CachePartial`): traverse to the
node at the key, stamping access times when requested, and return its value
when it is a leaf, `none` otherwise. -/
def get (c : Cache κ V) (key : List κ) (touch : Bool) (now : Nat) :
    Except (Cache κ V) (Option V × Cache κ V) :=
  match getImpl c.root key touch now with
  | .error t => .error { c with root := t }
  | .ok (n, t) =>
      .ok ((match n with
            | some (.leaf v _ _) => some v
            | _ => none), { c with root := t })

/-- `MemCache.sizeof` (via the root partial, whose stored prefix is `[]`):
the size slot of the node at the key, absent when unreachable. -/
def sizeofAt (c : Cache κ V) (key : List κ) : Except Unit (Option Int) :=
  match nodeAt c.root ([] ++ key) with
  | .error e => .error e
  | .ok none => .ok none
  | .ok (some n) => .ok (some n.sizeN)

/-- `MemCache.atime` (via the root partial): the access-time slot of the node
at the key, absent when unreachable. -/
def atimeAt (c : Cache κ V) (key : List κ) : Except Unit (Option Nat) :=
  match nodeAt c.root ([] ++ key) with
  | .error e => .error e
  | .ok none => .ok none
  | .ok (some n) => .ok (some n.atimeN)

/-- `MemCache.shouldAutoPrune`: false when auto-pruning is disabled, no
capacity is set, or the size is within capacity; otherwise true, debounced by
`autoPruneInterval` against `lastPruneAt`. -/
def shouldAutoPrune (c : Cache κ V) (now : Nat) : Bool :=
  if !c.autoPrune then false
  else
    match c.capacity with
    | none => false
    | some cap =>
      if size c ≤ cap then false
      else
        match c.autoPruneInterval with
        | none => true
        | some iv => decide ((iv : Int) ≤ (now : Int) - (c.lastPruneAt : Int))

/-- The depth test of `prune`'s `flatten` helper:
`prefix.length >= pruneDepth`, where `pruneDepth` defaults to `Infinity`
(modelled by `none`). -/
def depthReached (pd : Option Nat) (n : Nat) : Bool :=
  match pd with
  | none => false
  | some d => decide (d ≤ n)

mutual
/-- The `flatten` helper of `prune`: depth-first descent in child insertion
order; a node becomes a prunable unit when its key depth has reached
`pruneDepth` or it is a leaf, recording `(prefix, atime, size)`. -/
def flatten (pd : Option Nat) : Node κ V → List κ → List (PruneUnit κ)
  | .leaf _ a s, pfx => [⟨pfx, a, s⟩]
  | .branch m a s _, pfx =>
      if depthReached pd pfx.length then [⟨pfx, a, s⟩]
      else flattenL pd m pfx
/-- `flatten` over the entries of a child map, in insertion order. -/
def flattenL (pd : Option Nat) : List (κ × Node κ V) → List κ → List (PruneUnit κ)
  | [], _ => []
  | (k, n) :: rest, pfx => flatten pd n (pfx ++ [k]) ++ flattenL pd rest pfx
end

/-- Insert a unit into a list sorted ascending by access time, before the
first entry whose timestamp is not smaller.  Together with `sortByAtime` this
models the stable ascending `Array.prototype.sort` on `getTime()` values. -/
def insertSorted (u : PruneUnit κ) : List (PruneUnit κ) → List (PruneUnit κ)
  | [] => [u]
  | v :: vs => if v.atime < u.atime then v :: insertSorted u vs else u :: v :: vs

/-- Stable sort of the flattened unit list, least recently touched first. -/
def sortByAtime : List (PruneUnit κ) → List (PruneUnit κ)
  | [] => []
  | u :: us => insertSorted u (sortByAtime us)

/-- The eviction loop of `prune`: walk the sorted unit list, stop as soon as
the aggregate size is within capacity, and otherwise delete the unit's full
path from the root, collecting the evicted rows.  An exception from
`deleteImpl` propagates. -/
def pruneLoop (cap : Int) : List (PruneUnit κ) → Node κ V →
    Except (Node κ V) (List (PruneUnit κ) × Node κ V)
  | [], t => .ok ([], t)
  | u :: us, t =>
    if t.sizeN ≤ cap then .ok ([], t)
    else
      match deleteImpl t u.key with
      | .error t' => .error t'
      | .ok (_, t') =>
        match pruneLoop cap us t' with
        | .error t'' => .error t''
        | .ok (ds, t'') => .ok (u :: ds, t'')

/-- `MemCache.prune`: record `now` as the last-prune timestamp
unconditionally; when a capacity is set and exceeded, flatten the trie into
prunable units, sort them ascending by access time, and delete them until the
size is within capacity.  Returns the collected evicted rows. -/
def prune (c : Cache κ V) (now : Nat) :
    Except (Cache κ V) (List (PruneUnit κ) × Cache κ V) :=
  let c1 := { c with lastPruneAt := now }
  match c1.capacity with
  | none => .ok ([], c1)
  | some cap =>
    if size c1 ≤ cap then .ok ([], c1)
    else
      match pruneLoop cap (sortByAtime (flatten c1.pruneDepth c1.root [])) c1.root with
      | .error t => .error { c1 with root := t }
      | .ok (ds, t) => .ok (ds, { c1 with root := t })

/-- `MemCache.insertOne`: run `insertImpl` with the current date, and in a
`finally` block run the auto-prune check (so it runs even when the insert
threw or was a no-op); an exception raised by the pruner inside the `finally`
replaces the pending result. -/
def insertOne (est : V → Nat) (c : Cache κ V) (key : List κ) (value : V)
    (replace : Bool) (now : Nat) : Except (Cache κ V) (Option Int × Cache κ V) :=
  match insertImpl est c.root key value now replace with
  | .ok (sz, _, _, t) =>
      let c1 := { c with root := t }
      if shouldAutoPrune c1 now then
        match prune c1 now with
        | .ok (_, c2) => .ok (sz, c2)
        | .error c2 => .error c2
      else .ok (sz, c1)
  | .error t =>
      let c1 := { c with root := t }
      if shouldAutoPrune c1 now then
        match prune c1 now with
        | .ok (_, c2) => .error c2
        | .error c2 => .error c2
      else .error c1

/-- The per-entry loop of `insertMany`: apply `insertImpl` to each entry in
order, summing the non-null sizes; an exception aborts the rest of the batch. -/
def insertManyAux (est : V → Nat) :
    Node κ V → List (List κ × V) → Nat → Bool → Except (Node κ V) (Int × Node κ V)
  | t, [], _, _ => .ok (0, t)
  | t, (k, v) :: rest, now, replace =>
    match insertImpl est t k v now replace with
    | .error t' => .error t'
    | .ok (sz, _, _, t') =>
      match insertManyAux est t' rest now replace with
      | .error t'' => .error t''
      | .ok (total, t'') => .ok (sz.getD 0 + total, t'')

/-- `MemCache.insertMany`: apply the per-entry logic to the whole batch and
run the auto-prune check once, after the batch (no `finally`: an exception
skips the check). -/
def insertMany (est : V → Nat) (c : Cache κ V) (entries : List (List κ × V))
    (replace : Bool) (now : Nat) : Except (Cache κ V) (Int × Cache κ V) :=
  match insertManyAux est c.root entries now replace with
  | .error t => .error { c with root := t }
  | .ok (total, t) =>
      let c1 := { c with root := t }
      if shouldAutoPrune c1 now then
        match prune c1 now with
        | .ok (_, c2) => .ok (total, c2)
        | .error c2 => .error c2
      else .ok (total, c1)

/-- `MemCache.ensure`: `get(key, updateAccessTime=false)`; when absent, insert
with `replace=false`; return the existing value when there was one, the given
value otherwise. -/
def ensure (est : V → Nat) (c : Cache κ V) (key : List κ) (value : V)
    (now : Nat) : Except (Cache κ V) (V × Cache κ V) :=
  match get c key false now with
  | .error c' => .error c'
  | .ok (existing, c') =>
    match existing with
    | some ex => .ok (ex, c')
    | none =>
      match insertOne est c' key value false now with
      | .error c'' => .error c''
      | .ok (_, c'') => .ok (value, c'')

/-- `MemCache.deleteOne`: run `deleteImpl` from the root, discarding the
removed node. -/
def deleteOne (c : Cache κ V) (key : List κ) : Except (Cache κ V) (Cache κ V) :=
  match deleteImpl c.root key with
  | .error t => .error { c with root := t }
  | .ok (_, t) => .ok { c with root := t }

/-- `MemCache.deleteMany`: `deleteOne` for each key in order; an exception
aborts the rest. -/
def deleteMany (c : Cache κ V) : List (List κ) → Except (Cache κ V) (Cache κ V)
  | [] => .ok c
  | k :: ks =>
    match deleteOne c k with
    | .error c' => .error c'
    | .ok c' => deleteMany c' ks

/-- `MemCache.clear`: empty the root's child map and zero its size slot.  The
source resets only `root[0]` and `root[2]`; the access time and the leaf-count
slot `root[3]` are left as they were.  (The root is always a branch; the leaf
arm is unreachable and kept as the identity.) -/
def clear (c : Cache κ V) : Cache κ V :=
  { c with root :=
      match c.root with
      | .branch _ a _ cnt => .branch [] a 0 cnt
      | .leaf v a s => .leaf v a s }

/-- `MemCache.partial`: resolve the prefix to a node; `none` when it is
unknown or a leaf; otherwise the view is the pair of the stored prefix and the
retained branch. -/
def partialAt (c : Cache κ V) (key : List κ) :
    Except Unit (Option (List κ × Node κ V)) :=
  match nodeAt c.root key with
  | .error e => .error e
  | .ok none => .ok none
  | .ok (some n) => if n.isLeafN then .ok none else .ok (some (key, n))

/-- The constructor: a fresh root branch with zero size and count, the parsed
capacity, `lastPruneAt = now`, followed by `insertMany(options.values)`. -/
def mkCache (est : V → Nat) (opts : MemCacheOptions κ V) (now : Nat) : Cache κ V :=
  let base : Cache κ V :=
    { root := .branch [] now 0 0
      capacity := opts.capacity
      lastPruneAt := now
      autoPrune := opts.autoPrune
      autoPruneInterval := opts.autoPruneInterval
      pruneDepth := opts.pruneDepth }
  match insertMany est base opts.values true now with
  | .ok (_, c) => c
  | .error c => c

end MemCache

namespace PartialView

/-- `CachePartial.get`: traverse from the retained branch using the suffix key
only, stamping access times when requested; return the value when the node is
a leaf. -/
def get (root : Node κ V) (key : List κ) (touch : Bool) (now : Nat) :
    Except (Node κ V) (Option V × Node κ V) :=
  match getImpl root key touch now with
  | .error t => .error t
  | .ok (n, t) =>
      .ok ((match n with
            | some (.leaf v _ _) => some v
            | _ => none), t)

/-- `CachePartial.sizeof`: resolve `[...this.prefix, ...key]` starting at the
retained branch (the source prepends the stored prefix to the caller's key
even though the traversal already starts at the subtree). -/
def sizeofAt (pfx : List κ) (root : Node κ V) (key : List κ) :
    Except Unit (Option Int) :=
  match nodeAt root (pfx ++ key) with
  | .error e => .error e
  | .ok none => .ok none
  | .ok (some n) => .ok (some n.sizeN)

/-- `CachePartial.atime`: same traversal as `sizeofAt`, returning the access
time slot. -/
def atimeAt (pfx : List κ) (root : Node κ V) (key : List κ) :
    Except Unit (Option Nat) :=
  match nodeAt root (pfx ++ key) with
  | .error e => .error e
  | .ok none => .ok none
  | .ok (some n) => .ok (some n.atimeN)

/-- `CachePartial.count`: the retained branch's leaf-count slot. -/
def count (root : Node κ V) : Int := root.countN

/-- `CachePartial.insertOne`: delegate to the owning cache with the stored
prefix concatenated in front of the caller's key. -/
def insertOne (est : V → Nat) (c : Cache κ V) (pfx : List κ) (key : List κ)
    (value : V) (replace : Bool) (now : Nat) :
    Except (Cache κ V) (Option Int × Cache κ V) :=
  MemCache.insertOne est c (pfx ++ key) value replace now

/-- `CachePartial.insertMany`: the source delegates to the owning cache
without prefixing the keys (`this.cache.insertMany(values, replace)`). -/
def insertMany (est : V → Nat) (c : Cache κ V) (pfx : List κ)
    (entries : List (List κ × V)) (replace : Bool) (now : Nat) :
    Except (Cache κ V) (Int × Cache κ V) :=
  MemCache.insertMany est c entries replace now

/-- `CachePartial.deleteOne`: delegate to the owning cache with the stored
prefix concatenated in front of the caller's key. -/
def deleteOne (c : Cache κ V) (pfx : List κ) (key : List κ) :
    Except (Cache κ V) (Cache κ V) :=
  MemCache.deleteOne c (pfx ++ key)

end PartialView

/-- One public mutating call, with its call-time date where the source reads
the clock.  These are the operations claim C1 quantifies over. -/
inductive Op (κ V : Type) where
  | insertOne (key : List κ) (value : V) (replace : Bool) (now : Nat)
  | insertMany (entries : List (List κ × V)) (replace : Bool) (now : Nat)
  | ensure (key : List κ) (value : V) (now : Nat)
  | deleteOne (key : List κ)
  | deleteMany (keys : List (List κ))
  | clear
  | prune (now : Nat)

/-- The cache state after an `Except` completes, normally or exceptionally
(the error payload is the state at the throw). -/
def afterE {κ V α : Type} : Except (Cache κ V) (α × Cache κ V) → Cache κ V
  | .ok (_, c) => c
  | .error c => c

/-- The cache state after a result-less `Except` completes. -/
def afterD {κ V : Type} : Except (Cache κ V) (Cache κ V) → Cache κ V
  | .ok c => c
  | .error c => c

/-- Run one public operation and keep the post-state, whether it returned or
threw. -/
def applyOp (est : V → Nat) (c : Cache κ V) : Op κ V → Cache κ V
  | .insertOne k v r now => afterE (MemCache.insertOne est c k v r now)
  | .insertMany es r now => afterE (MemCache.insertMany est c es r now)
  | .ensure k v now => afterE (MemCache.ensure est c k v now)
  | .deleteOne k => afterD (MemCache.deleteOne c k)
  | .deleteMany ks => afterD (MemCache.deleteMany c ks)
  | .clear => MemCache.clear c
  | .prune now => afterE (MemCache.prune c now)

/-- Run a sequence of public operations in order. -/
def applyOps (est : V → Nat) (c : Cache κ V) : List (Op κ V) → Cache κ V
  | [] => c
  | op :: ops => applyOps est (applyOp est c op) ops

end CacheLevel

section WellFormed

variable {κ V : Type} [DecidableEq κ]

mutual
/-- Well-formedness inherited from JS `Map`s: every child map in the tree has
pairwise-distinct keys. -/
def nodupN : Node κ V → Bool
  | .leaf _ _ _ => true
  | .branch m _ _ _ => nodupL m
/-- `nodupN` for a child map: the head key does not recur and every subtree is
well formed. -/
def nodupL : List (κ × Node κ V) → Bool
  | [] => true
  | (k, n) :: rest => !(mapGet rest k).isSome && nodupN n && nodupL rest
end

mutual
/-- Decidable check that every `size` slot in the tree is nonnegative. -/
def nonnegB : Node κ V → Bool
  | .leaf _ _ s => decide (0 ≤ s)
  | .branch m _ s _ => decide (0 ≤ s) && nonnegL m
/-- `nonnegB` on every entry of a child map. -/
def nonnegL : List (κ × Node κ V) → Bool
  | [] => true
  | (_, n) :: rest => nonnegB n && nonnegL rest
end

end WellFormed

section MapLemmas

variable {κ V : Type} [DecidableEq κ]

open Node

@[simp] theorem sizeN_leaf (v : V) (a : Nat) (s : Int) :
    (Node.leaf v a s : Node κ V).sizeN = s := rfl

@[simp] theorem sizeN_branch (m : List (κ × Node κ V)) (a : Nat) (s c : Int) :
    (Node.branch m a s c).sizeN = s := rfl

@[simp] theorem atimeN_leaf (v : V) (a : Nat) (s : Int) :
    (Node.leaf v a s : Node κ V).atimeN = a := rfl

@[simp] theorem atimeN_branch (m : List (κ × Node κ V)) (a : Nat) (s c : Int) :
    (Node.branch m a s c).atimeN = a := rfl

@[simp] theorem countN_branch (m : List (κ × Node κ V)) (a : Nat) (s c : Int) :
    (Node.branch m a s c).countN = c := rfl

theorem mapGet_set_self (m : List (κ × Node κ V)) (k : κ) (n : Node κ V) :
    mapGet (mapSet m k n) k = some n := by
  induction m with
  | nil => simp [mapSet, mapGet]
  | cons kn rest ih =>
    obtain ⟨k', n'⟩ := kn
    by_cases h : k' = k <;> simp [mapSet, mapGet, h, ih]

theorem mapGet_set_ne (m : List (κ × Node κ V)) (k : κ) (n : Node κ V)
    (k'' : κ) (h : k'' ≠ k) : mapGet (mapSet m k n) k'' = mapGet m k'' := by
  induction m with
  | nil => simp [mapSet, mapGet, Ne.symm h]
  | cons kn rest ih =>
    obtain ⟨k', n'⟩ := kn
    by_cases hk : k' = k
    · subst hk
      simp [mapSet, mapGet, Ne.symm h]
    · simp [mapSet, mapGet, hk, ih]

theorem mapSet_self_id (m : List (κ × Node κ V)) (k : κ) (n : Node κ V)
    (h : mapGet m k = some n) : mapSet m k n = m := by
  induction m with
  | nil => simp [mapGet] at h
  | cons kn rest ih =>
    obtain ⟨k', n'⟩ := kn
    by_cases hk : k' = k
    · subst hk
      simp [mapGet] at h
      simp [mapSet, h]
    · simp [mapGet, hk] at h
      simp [mapSet, hk, ih h]

theorem mapGet_delete_ne (m : List (κ × Node κ V)) (k k'' : κ) (h : k'' ≠ k) :
    mapGet (mapDelete m k) k'' = mapGet m k'' := by
  induction m with
  | nil => simp [mapDelete]
  | cons kn rest ih =>
    obtain ⟨k', n'⟩ := kn
    by_cases hk : k' = k
    · subst hk
      simp [mapDelete, mapGet, Ne.symm h]
    · simp [mapDelete, mapGet, hk, ih]

theorem mapGet_delete_self (m : List (κ × Node κ V)) (k : κ)
    (h : nodupL m = true) : mapGet (mapDelete m k) k = none := by
  induction m with
  | nil => simp [mapDelete, mapGet]
  | cons kn rest ih =>
    obtain ⟨k', n'⟩ := kn
    simp only [nodupL, Bool.and_eq_true, Bool.not_eq_true'] at h
    by_cases hk : k' = k
    · subst hk
      simpa [mapDelete, Option.isSome_iff_exists] using h.1.1
    · simp [mapDelete, mapGet, hk, ih h.2]

theorem nodupL_get (m : List (κ × Node κ V)) (k : κ) (n : Node κ V)
    (hm : nodupL m = true) (h : mapGet m k = some n) : nodupN n = true := by
  induction m with
  | nil => simp [mapGet] at h
  | cons kn rest ih =>
    obtain ⟨k', n'⟩ := kn
    simp only [nodupL, Bool.and_eq_true, Bool.not_eq_true'] at hm
    by_cases hk : k' = k
    · subst hk
      simp [mapGet] at h
      exact h ▸ hm.1.2
    · simp [mapGet, hk] at h
      exact ih hm.2 h

theorem sumSizes_set_none (m : List (κ × Node κ V)) (k : κ) (n : Node κ V)
    (h : mapGet m k = none) : sumSizes (mapSet m k n) = sumSizes m + n.sizeN := by
  induction m with
  | nil => simp [mapSet, sumSizes]
  | cons kn rest ih =>
    obtain ⟨k', n'⟩ := kn
    by_cases hk : k' = k
    · simp [mapGet, hk] at h
    · simp [mapGet, hk] at h
      simp [mapSet, sumSizes, hk, ih h]
      ring

theorem sumSizes_set_some (m : List (κ × Node κ V)) (k : κ) (n e : Node κ V)
    (h : mapGet m k = some e) :
    sumSizes (mapSet m k n) = sumSizes m - e.sizeN + n.sizeN := by
  induction m with
  | nil => simp [mapGet] at h
  | cons kn rest ih =>
    obtain ⟨k', n'⟩ := kn
    by_cases hk : k' = k
    · subst hk
      simp [mapGet] at h
      subst h
      simp [mapSet, sumSizes]
      ring
    · simp [mapGet, hk] at h
      simp [mapSet, sumSizes, hk, ih h]
      ring

theorem sumSizes_delete (m : List (κ × Node κ V)) (k : κ) (e : Node κ V)
    (h : mapGet m k = some e) :
    sumSizes (mapDelete m k) = sumSizes m - e.sizeN := by
  induction m with
  | nil => simp [mapGet] at h
  | cons kn rest ih =>
    obtain ⟨k', n'⟩ := kn
    by_cases hk : k' = k
    · subst hk
      simp [mapGet] at h
      subst h
      simp [mapDelete, sumSizes]
    · simp [mapGet, hk] at h
      simp [mapDelete, sumSizes, hk, ih h]
      ring

theorem sizeOkL_get (m : List (κ × Node κ V)) (k : κ) (e : Node κ V)
    (hm : sizeOkL m = true) (h : mapGet m k = some e) : sizeOkB e = true := by
  induction m with
  | nil => simp [mapGet] at h
  | cons kn rest ih =>
    obtain ⟨k', n'⟩ := kn
    simp only [sizeOkL, Bool.and_eq_true] at hm
    by_cases hk : k' = k
    · subst hk
      simp [mapGet] at h
      exact h ▸ hm.1
    · simp [mapGet, hk] at h
      exact ih hm.2 h

theorem sizeOkL_set (m : List (κ × Node κ V)) (k : κ) (n : Node κ V)
    (hm : sizeOkL m = true) (hn : sizeOkB n = true) :
    sizeOkL (mapSet m k n) = true := by
  induction m with
  | nil => simp [mapSet, sizeOkL, hn]
  | cons kn rest ih =>
    obtain ⟨k', n'⟩ := kn
    simp only [sizeOkL, Bool.and_eq_true] at hm
    by_cases hk : k' = k
    · simp [mapSet, hk, sizeOkL, hn, hm.2]
    · simp [mapSet, hk, sizeOkL, hm.1, ih hm.2]

theorem sizeOkL_delete (m : List (κ × Node κ V)) (k : κ)
    (hm : sizeOkL m = true) : sizeOkL (mapDelete m k) = true := by
  induction m with
  | nil => simp [mapDelete, sizeOkL]
  | cons kn rest ih =>
    obtain ⟨k', n'⟩ := kn
    simp only [sizeOkL, Bool.and_eq_true] at hm
    by_cases hk : k' = k
    · simp [mapDelete, hk, hm.2]
    · simp [mapDelete, hk, sizeOkL, hm.1, ih hm.2]

end MapLemmas

section NodeLemmas

variable {κ V : Type} [DecidableEq κ]

open Node

/-- Structural induction over trees: to prove a property of every node it
suffices to prove it for leaves and for branches assuming it for every entry
of the child map. -/
theorem node_ind (motive : Node κ V → Prop)
    (hl : ∀ v a s, motive (.leaf v a s))
    (hb : ∀ m a s c, (∀ kn ∈ m, motive kn.2) → motive (.branch m a s c)) :
    ∀ n, motive n := by
  intro n
  induction n using Node.rec (motive_2 := fun l => ∀ kn ∈ l, motive kn.2)
    (motive_3 := fun kn => motive kn.2) with
  | leaf v a s => exact hl v a s
  | branch m a s c ih => exact hb m a s c ih
  | nil =>
      rename_i kn h
      exact absurd h (List.not_mem_nil _)
  | cons hd tl ihh iht =>
      rename_i kn h
      rcases List.mem_cons.mp h with h | h
      · subst h; exact ihh
      · exact iht kn h
  | mk fst snd ih => exact ih

@[simp] theorem stripA_setAtime (n : Node κ V) (t : Nat) :
    stripA (n.setAtime t) = stripA n := by
  cases n <;> simp [Node.setAtime, stripA]

@[simp] theorem sizeN_setAtime (n : Node κ V) (t : Nat) :
    (n.setAtime t).sizeN = n.sizeN := by
  cases n <;> simp [Node.setAtime]

@[simp] theorem sizeN_stripA (n : Node κ V) : (stripA n).sizeN = n.sizeN := by
  cases n <;> simp [stripA]

@[simp] theorem countN_stripA (n : Node κ V) : (stripA n).countN = n.countN := by
  cases n <;> simp [stripA, Node.countN]

theorem sumSizes_stripAL (m : List (κ × Node κ V)) :
    sumSizes (stripAL m) = sumSizes m := by
  induction m with
  | nil => simp [stripAL, sumSizes]
  | cons kn rest ih =>
    obtain ⟨k, n⟩ := kn
    simp [stripAL, sumSizes, ih]

theorem sizeOkB_stripA (n : Node κ V) : sizeOkB (stripA n) = sizeOkB n := by
  induction n using node_ind with
  | hl v a s => simp [stripA, sizeOkB]
  | hb m a s c ih =>
    simp only [stripA, sizeOkB, sumSizes_stripAL]
    congr 1
    induction m with
    | nil => simp [stripAL]
    | cons kn rest ihm =>
      obtain ⟨k, n'⟩ := kn
      simp only [stripAL, sizeOkL]
      rw [ih ⟨k, n'⟩ (by simp), ihm (fun p hp => ih p (by simp [hp]))]

theorem leafCountN_stripA (n : Node κ V) :
    leafCountN (stripA n) = leafCountN n := by
  induction n using node_ind with
  | hl v a s => simp [stripA, leafCountN]
  | hb m a s c ih =>
    simp only [stripA, leafCountN]
    induction m with
    | nil => simp [stripAL, leafCountL]
    | cons kn rest ihm =>
      obtain ⟨k, n'⟩ := kn
      simp only [stripAL, leafCountL]
      rw [ih ⟨k, n'⟩ (by simp), ihm (fun p hp => ih p (by simp [hp]))]

theorem nonnegB_stripA (n : Node κ V) : nonnegB (stripA n) = nonnegB n := by
  induction n using node_ind with
  | hl v a s => simp [stripA, nonnegB]
  | hb m a s c ih =>
    simp only [stripA, nonnegB]
    congr 1
    induction m with
    | nil => simp [stripAL]
    | cons kn rest ihm =>
      obtain ⟨k, n'⟩ := kn
      simp only [stripAL, nonnegL]
      rw [ih ⟨k, n'⟩ (by simp), ihm (fun p hp => ih p (by simp [hp]))]

/-- The size invariant forces every size slot to be nonnegative: aggregate
sizes are sums of leaf sizes, which are nonnegative. -/
theorem sizeOk_nonneg (n : Node κ V) (h : sizeOkB n = true) :
    nonnegB n = true := by
  induction n using node_ind with
  | hl v a s => simpa [sizeOkB, nonnegB] using h
  | hb m a s c ih =>
    simp only [sizeOkB, Bool.and_eq_true, decide_eq_true_eq] at h
    have hsum : ∀ (l : List (κ × Node κ V)), sizeOkL l = true →
        (∀ kn ∈ l, sizeOkB kn.2 = true → nonnegB kn.2 = true) →
        nonnegL l = true ∧ 0 ≤ sumSizes l := by
      intro l
      induction l with
      | nil => intro _ _; simp [nonnegL, sumSizes]
      | cons kn rest ihl =>
        intro hok hmem
        obtain ⟨k, n'⟩ := kn
        simp only [sizeOkL, Bool.and_eq_true] at hok
        have h1 : nonnegB n' = true := hmem ⟨k, n'⟩ (by simp) hok.1
        have h2 := ihl hok.2 (fun p hp => hmem p (by simp [hp]))
        have h3 : 0 ≤ n'.sizeN := by
          cases n' with
          | leaf v a s => simpa [sizeOkB] using hok.1
          | branch mm aa ss cc =>
            simp only [nonnegB, Bool.and_eq_true, decide_eq_true_eq] at h1
            simpa using h1.1
        refine ⟨by simp [nonnegL, h1, h2.1], ?_⟩
        simp only [sumSizes]
        omega
    have := hsum m h.2 (fun kn hkn => ih kn hkn)
    simp [nonnegB, this.1, h.1]
    omega

theorem stripAL_set_congr (m : List (κ × Node κ V)) (h : κ)
    (child child' : Node κ V) (hget : mapGet m h = some child)
    (hc : stripA child' = stripA child) :
    stripAL (mapSet m h child') = stripAL m := by
  induction m with
  | nil => simp [mapGet] at hget
  | cons kn rest ih =>
    obtain ⟨k, n⟩ := kn
    by_cases hk : k = h
    · subst hk
      simp [mapGet] at hget
      simp [mapSet, stripAL, hc, hget]
    · simp [mapGet, hk] at hget
      simp [mapSet, stripAL, hk, ih hget]

/-- Final tree extractor for `getImpl`- and `deleteImpl`-shaped results. -/
def postG : Except (Node κ V) (Option (Node κ V) × Node κ V) → Node κ V
  | .ok (_, t) => t
  | .error t => t

/-- Final tree extractor for `insertImpl`-shaped results. -/
def postIns : Except (Node κ V) (Option Int × Int × Bool × Node κ V) → Node κ V
  | .ok (_, _, _, t) => t
  | .error t => t

/-- `getImpl` rewrites only access timestamps: the timestamp-erased tree is
unchanged whether the traversal returns or throws. -/
theorem getImpl_strip (k : List κ) :
    ∀ (t : Node κ V) (touch : Bool) (now : Nat),
      stripA (postG (getImpl t k touch now)) = stripA t := by
  induction k with
  | nil =>
    intro t touch now
    cases touch <;> simp [getImpl, postG]
  | cons h tl ih =>
    intro t touch now
    cases touch with
    | false =>
      cases t with
      | leaf v a s => simp [getImpl, postG]
      | branch m a s c =>
        simp only [getImpl, Bool.false_eq_true, if_false]
        cases hm : mapGet m h with
        | none => simp [hm, postG]
        | some child =>
          cases hres : getImpl child tl false now with
          | error child' =>
            have hstr := ih child false now
            rw [hres] at hstr
            simp only [postG] at hstr
            simp [hm, hres, postG, stripA, stripAL_set_congr m h child child' hm hstr]
          | ok res =>
            obtain ⟨r, child'⟩ := res
            have hstr := ih child false now
            rw [hres] at hstr
            simp only [postG] at hstr
            simp [hm, hres, postG, stripA, stripAL_set_congr m h child child' hm hstr]
    | true =>
      cases t with
      | leaf v a s => simp [getImpl, Node.setAtime, postG, stripA]
      | branch m a s c =>
        simp only [getImpl, Node.setAtime, if_true]
        cases hm : mapGet m h with
        | none => simp [hm, postG, stripA]
        | some child =>
          cases hres : getImpl child tl true now with
          | error child' =>
            have hstr := ih child true now
            rw [hres] at hstr
            simp only [postG] at hstr
            simp [hm, hres, postG, stripA, stripAL_set_congr m h child child' hm hstr]
          | ok res =>
            obtain ⟨r, child'⟩ := res
            have hstr := ih child true now
            rw [hres] at hstr
            simp only [postG] at hstr
            simp [hm, hres, postG, stripA, stripAL_set_congr m h child child' hm hstr]

end NodeLemmas

section ImplLemmas

variable {κ V : Type} [DecidableEq κ]

open Node

/-- Unfolding equation for `insertImpl` at a branch with a long key whose head
resolves to an existing child. -/
theorem insertImpl_step_some (est : V → Nat) (m : List (κ × Node κ V))
    (a : Nat) (s c : Int) (hd : κ) (tl : List κ) (v : V) (d : Nat) (r : Bool)
    (child : Node κ V) (htl : tl ≠ []) (hm : mapGet m hd = some child) :
    insertImpl est (.branch m a s c) (hd :: tl) v d r =
      match insertImpl est child tl v d r with
      | .error child' => .error (.branch (mapSet m hd child') a s c)
      | .ok (sz, diff, ins, child') =>
          .ok (sz, diff, ins, .branch (mapSet m hd child') d (s + diff)
            (c + if ins then 1 else 0)) := by
  cases tl with
  | nil => exact absurd rfl htl
  | cons hd2 tl2 => simp [insertImpl, hm]

/-- Unfolding equation for `insertImpl` at a branch with a long key whose head
has no child yet: a fresh empty branch is created, put in the map, and
descended into. -/
theorem insertImpl_step_none (est : V → Nat) (m : List (κ × Node κ V))
    (a : Nat) (s c : Int) (hd : κ) (tl : List κ) (v : V) (d : Nat) (r : Bool)
    (htl : tl ≠ []) (hm : mapGet m hd = none) :
    insertImpl est (.branch m a s c) (hd :: tl) v d r =
      match insertImpl est (.branch [] d 0 0) tl v d r with
      | .error child' =>
          .error (.branch (mapSet (mapSet m hd (.branch [] d 0 0)) hd child') a s c)
      | .ok (sz, diff, ins, child') =>
          .ok (sz, diff, ins,
            .branch (mapSet (mapSet m hd (.branch [] d 0 0)) hd child') d (s + diff)
              (c + if ins then 1 else 0)) := by
  cases tl with
  | nil => exact absurd rfl htl
  | cons hd2 tl2 => simp [insertImpl, hm]

/-- Unfolding equation for `insertImpl` at a branch with a single-component
key: the terminal store/no-op step. -/
theorem insertImpl_last (est : V → Nat) (m : List (κ × Node κ V))
    (a : Nat) (s c : Int) (hd : κ) (v : V) (d : Nat) (r : Bool) :
    insertImpl est (.branch m a s c) [hd] v d r =
      if r = false ∧ (mapGet m hd).isSome then .ok (none, 0, false, .branch m a s c)
      else
        .ok (some (est v : Int),
          (est v : Int) - (match mapGet m hd with | some e => e.sizeN | none => 0),
          (mapGet m hd).isNone,
          .branch (mapSet m hd (.leaf v d (est v : Int))) d
            (s + ((est v : Int) - (match mapGet m hd with | some e => e.sizeN | none => 0)))
            (c + if (mapGet m hd).isNone then 1 else 0)) := rfl

/-- Unfolding equation for `deleteImpl` at a branch with a long key whose head
resolves to a child. -/
theorem deleteImpl_step_some (m : List (κ × Node κ V)) (a : Nat) (s c : Int)
    (hd : κ) (tl : List κ) (child : Node κ V) (htl : tl ≠ [])
    (hm : mapGet m hd = some child) :
    deleteImpl (.branch m a s c) (hd :: tl) =
      match deleteImpl child tl with
      | .error child' => .error (.branch (mapSet m hd child') a s c)
      | .ok (none, child') => .ok (none, .branch (mapSet m hd child') a s c)
      | .ok (some d1, child') =>
          .ok (some d1, .branch (mapSet m hd child') a (s - d1.sizeN)
            (c - (match d1 with | .branch _ _ _ ec => ec | .leaf _ _ _ => 1))) := by
  cases tl with
  | nil => exact absurd rfl htl
  | cons hd2 tl2 => simp [deleteImpl, hm]

/-- Unfolding equation for `deleteImpl` at a branch with a long key whose head
has no child: a no-op. -/
theorem deleteImpl_step_none (m : List (κ × Node κ V)) (a : Nat) (s c : Int)
    (hd : κ) (tl : List κ) (htl : tl ≠ []) (hm : mapGet m hd = none) :
    deleteImpl (.branch m a s c) (hd :: tl) = .ok (none, .branch m a s c) := by
  cases tl with
  | nil => exact absurd rfl htl
  | cons hd2 tl2 => simp [deleteImpl, hm]

/-- Unfolding equation for `deleteImpl` at a branch with a single-component
key: the terminal removal step. -/
theorem deleteImpl_last (m : List (κ × Node κ V)) (a : Nat) (s c : Int) (hd : κ) :
    deleteImpl (.branch m a s c) [hd] =
      match mapGet m hd with
      | none => .ok (none, .branch m a s c)
      | some entry =>
          .ok (some entry, .branch (mapDelete m hd) a (s - entry.sizeN)
            (c - (match entry with | .branch _ _ _ ec => ec | .leaf _ _ _ => 1))) := rfl

/-- Every successful `insertImpl` changes the root size slot by exactly the
returned delta. -/
theorem insertImpl_delta (est : V → Nat) (t : Node κ V) (k : List κ) (v : V)
    (d : Nat) (r : Bool) :
    ∀ sz diff ins t', insertImpl est t k v d r = .ok (sz, diff, ins, t') →
      t'.sizeN = t.sizeN + diff := by
  induction t, k, v, d, r using @insertImpl.induct κ V _ est with
  | case1 node v d r =>
    intro sz diff ins t' h
    simp only [insertImpl, Except.ok.injEq, Prod.mk.injEq] at h
    obtain ⟨-, h2, -, h4⟩ := h
    subst h2; subst h4; simp
  | case2 hd tl v d r v0 a s =>
    intro sz diff ins t' h
    simp [insertImpl] at h
  | case3 hd v d r m a s c existing hcond =>
    intro sz diff ins t' h
    unfold_let existing at hcond
    rw [insertImpl_last] at h
    split at h
    · simp only [Except.ok.injEq, Prod.mk.injEq] at h
      obtain ⟨-, h2, -, h4⟩ := h
      subst h2; subst h4; simp
    · rename_i hcc
      exact absurd hcond hcc
  | case4 hd v d r m a s c existing hcond =>
    intro sz diff ins t' h
    unfold_let existing at hcond
    rw [insertImpl_last] at h
    split at h
    · rename_i hcc
      exact absurd hcc hcond
    · simp only [Except.ok.injEq, Prod.mk.injEq] at h
      obtain ⟨-, h2, -, h4⟩ := h
      subst h2; subst h4; simp
  | case5 hd v d r m a s c hd2 tl2 child hm child' hres ih =>
    intro sz diff ins t' h
    rw [insertImpl_step_some est m a s c hd (hd2 :: tl2) v d r child (by simp) hm] at h
    simp [hres] at h
  | case6 hd v d r m a s c hd2 tl2 child hm sz1 diff1 ins1 child' hres ih =>
    intro sz diff ins t' h
    rw [insertImpl_step_some est m a s c hd (hd2 :: tl2) v d r child (by simp) hm] at h
    simp only [hres, Except.ok.injEq, Prod.mk.injEq] at h
    obtain ⟨-, h2, -, h4⟩ := h
    subst h2; subst h4; simp
  | case7 hd v d r m a s c hd2 tl2 hm child child' hres ih =>
    intro sz diff ins t' h
    rw [insertImpl_step_none est m a s c hd (hd2 :: tl2) v d r (by simp) hm] at h
    simp [hres] at h
  | case8 hd v d r m a s c hd2 tl2 hm child sz1 diff1 ins1 child' hres ih =>
    intro sz diff ins t' h
    rw [insertImpl_step_none est m a s c hd (hd2 :: tl2) v d r (by simp) hm] at h
    simp only [hres, Except.ok.injEq, Prod.mk.injEq] at h
    obtain ⟨-, h2, -, h4⟩ := h
    subst h2; subst h4; simp

/-- `insertImpl` into a freshly created empty branch never throws: the path
below a fresh branch contains no pre-existing leaf. -/
theorem insertImpl_fresh_ok (est : V → Nat) (v : V) (d : Nat) (r : Bool) :
    ∀ (tl : List κ) (d0 : Nat) (t' : Node κ V),
      insertImpl est (Node.branch [] d0 0 0) tl v d r ≠ .error t' := by
  intro tl
  induction tl with
  | nil => intro d0 t' h; simp [insertImpl] at h
  | cons hd tl2 ih =>
    intro d0 t' h
    cases tl2 with
    | nil =>
      rw [insertImpl_last] at h
      split at h
      · cases h
      · cases h
    | cons hd2 tl3 =>
      rw [insertImpl_step_none est [] d0 0 0 hd (hd2 :: tl3) v d r (by simp) rfl] at h
      cases hres : insertImpl est (Node.branch [] d 0 0) (hd2 :: tl3) v d r with
      | error child' =>
        rw [hres] at h
        exact ih d child' hres
      | ok res =>
        obtain ⟨a1, a2, a3, child'⟩ := res
        rw [hres] at h
        cases h

/-- When `insertImpl` throws (the key path ran into an existing leaf), no
mutation has happened yet: the error state is the input tree. -/
theorem insertImpl_error_eq (est : V → Nat) (t : Node κ V) (k : List κ)
    (v : V) (d : Nat) (r : Bool) :
    ∀ t', insertImpl est t k v d r = .error t' → t' = t := by
  induction t, k, v, d, r using @insertImpl.induct κ V _ est with
  | case1 node v d r => intro t' h; simp [insertImpl] at h
  | case2 hd tl v d r v0 a s =>
    intro t' h
    simp only [insertImpl, Except.error.injEq] at h
    exact h.symm
  | case3 hd v d r m a s c existing hcond =>
    intro t' h
    rw [insertImpl_last] at h
    split at h
    · cases h
    · cases h
  | case4 hd v d r m a s c existing hcond =>
    intro t' h
    rw [insertImpl_last] at h
    split at h
    · cases h
    · cases h
  | case5 hd v d r m a s c hd2 tl2 child hm child' hres ih =>
    intro t' h
    rw [insertImpl_step_some est m a s c hd (hd2 :: tl2) v d r child (by simp) hm] at h
    simp only [hres, Except.error.injEq] at h
    have hcc := ih child' hres
    rw [hcc, mapSet_self_id m hd child hm] at h
    exact h.symm
  | case6 hd v d r m a s c hd2 tl2 child hm sz1 diff1 ins1 child' hres ih =>
    intro t' h
    rw [insertImpl_step_some est m a s c hd (hd2 :: tl2) v d r child (by simp) hm] at h
    simp [hres] at h
  | case7 hd v d r m a s c hd2 tl2 hm child child' hres ih =>
    intro t' h
    exact absurd hres (insertImpl_fresh_ok est v d r (hd2 :: tl2) d child')
  | case8 hd v d r m a s c hd2 tl2 hm child sz1 diff1 ins1 child' hres ih =>
    intro t' h
    rw [insertImpl_step_none est m a s c hd (hd2 :: tl2) v d r (by simp) hm] at h
    simp [hres] at h

/-- Every successful deletion that removed a node shrinks the root size slot
by exactly the removed node's size slot. -/
theorem deleteImpl_delta (t : Node κ V) (k : List κ) :
    ∀ (d t' : Node κ V), deleteImpl t k = .ok (some d, t') →
      t'.sizeN = t.sizeN - d.sizeN := by
  induction t, k using deleteImpl.induct with
  | case1 node => intro d t' h; simp [deleteImpl] at h
  | case2 hd tl v0 a s => intro d t' h; simp [deleteImpl] at h
  | case3 hd m a s c hm =>
    intro d t' h
    rw [deleteImpl_last, hm] at h
    cases h
  | case4 hd m a s c entry hm =>
    intro d t' h
    rw [deleteImpl_last, hm] at h
    simp only [Except.ok.injEq, Prod.mk.injEq, Option.some.injEq] at h
    obtain ⟨h1, h2⟩ := h
    subst h1; subst h2; simp
  | case5 hd m a s c hd2 tl2 hm =>
    intro d t' h
    rw [deleteImpl_step_none m a s c hd (hd2 :: tl2) (by simp) hm] at h
    cases h
  | case6 hd m a s c hd2 tl2 child hm child' hres ih =>
    intro d t' h
    rw [deleteImpl_step_some m a s c hd (hd2 :: tl2) child (by simp) hm] at h
    simp [hres] at h
  | case7 hd m a s c hd2 tl2 child hm child' hres ih =>
    intro d t' h
    rw [deleteImpl_step_some m a s c hd (hd2 :: tl2) child (by simp) hm] at h
    simp [hres] at h
  | case8 hd m a s c hd2 tl2 child hm d1 child' hres ih =>
    intro d t' h
    rw [deleteImpl_step_some m a s c hd (hd2 :: tl2) child (by simp) hm] at h
    simp only [hres, Except.ok.injEq, Prod.mk.injEq, Option.some.injEq] at h
    obtain ⟨h1, h2⟩ := h
    subst h1; subst h2; simp

/-- A deletion that found nothing to remove leaves the tree untouched. -/
theorem deleteImpl_none_eq (t : Node κ V) (k : List κ) :
    ∀ t', deleteImpl t k = .ok (none, t') → t' = t := by
  induction t, k using deleteImpl.induct with
  | case1 node =>
    intro t' h
    simp only [deleteImpl, Except.ok.injEq, Prod.mk.injEq] at h
    exact h.2.symm
  | case2 hd tl v0 a s => intro t' h; simp [deleteImpl] at h
  | case3 hd m a s c hm =>
    intro t' h
    rw [deleteImpl_last, hm] at h
    simp only [Except.ok.injEq, Prod.mk.injEq] at h
    exact h.2.symm
  | case4 hd m a s c entry hm =>
    intro t' h
    rw [deleteImpl_last, hm] at h
    simp at h
  | case5 hd m a s c hd2 tl2 hm =>
    intro t' h
    rw [deleteImpl_step_none m a s c hd (hd2 :: tl2) (by simp) hm] at h
    simp only [Except.ok.injEq, Prod.mk.injEq] at h
    exact h.2.symm
  | case6 hd m a s c hd2 tl2 child hm child' hres ih =>
    intro t' h
    rw [deleteImpl_step_some m a s c hd (hd2 :: tl2) child (by simp) hm] at h
    simp [hres] at h
  | case7 hd m a s c hd2 tl2 child hm child' hres ih =>
    intro t' h
    rw [deleteImpl_step_some m a s c hd (hd2 :: tl2) child (by simp) hm] at h
    simp only [hres, Except.ok.injEq, Prod.mk.injEq] at h
    have hcc := ih child' hres
    obtain ⟨-, h2⟩ := h
    rw [hcc, mapSet_self_id m hd child hm] at h2
    exact h2.symm
  | case8 hd m a s c hd2 tl2 child hm d1 child' hres ih =>
    intro t' h
    rw [deleteImpl_step_some m a s c hd (hd2 :: tl2) child (by simp) hm] at h
    simp [hres] at h

/-- When `deleteImpl` throws (the key path ran into a leaf), no mutation has
happened: the error state is the input tree. -/
theorem deleteImpl_error_eq (t : Node κ V) (k : List κ) :
    ∀ t', deleteImpl t k = .error t' → t' = t := by
  induction t, k using deleteImpl.induct with
  | case1 node => intro t' h; simp [deleteImpl] at h
  | case2 hd tl v0 a s =>
    intro t' h
    simp only [deleteImpl, Except.error.injEq] at h
    exact h.symm
  | case3 hd m a s c hm =>
    intro t' h
    rw [deleteImpl_last, hm] at h
    cases h
  | case4 hd m a s c entry hm =>
    intro t' h
    rw [deleteImpl_last, hm] at h
    cases h
  | case5 hd m a s c hd2 tl2 hm =>
    intro t' h
    rw [deleteImpl_step_none m a s c hd (hd2 :: tl2) (by simp) hm] at h
    cases h
  | case6 hd m a s c hd2 tl2 child hm child' hres ih =>
    intro t' h
    rw [deleteImpl_step_some m a s c hd (hd2 :: tl2) child (by simp) hm] at h
    simp only [hres, Except.error.injEq] at h
    have hcc := ih child' hres
    rw [hcc, mapSet_self_id m hd child hm] at h
    exact h.symm
  | case7 hd m a s c hd2 tl2 child hm child' hres ih =>
    intro t' h
    rw [deleteImpl_step_some m a s c hd (hd2 :: tl2) child (by simp) hm] at h
    simp [hres] at h
  | case8 hd m a s c hd2 tl2 child hm d1 child' hres ih =>
    intro t' h
    rw [deleteImpl_step_some m a s c hd (hd2 :: tl2) child (by simp) hm] at h
    simp [hres] at h

/-- A stored leaf has nonnegative size: the estimator returns a byte count. -/
theorem sizeOk_leaf_est (est : V → Nat) (v : V) (d : Nat) :
    sizeOkB (Node.leaf v d (est v : Int) : Node κ V) = true := by
  simp [sizeOkB]

/-- An empty fresh branch satisfies the size invariant. -/
theorem sizeOk_fresh (d : Nat) :
    sizeOkB (Node.branch [] d 0 0 : Node κ V) = true := by
  simp [sizeOkB, sumSizes, sizeOkL]

/-- `insertImpl` preserves the size invariant, whether it returns or throws. -/
theorem insertImpl_sizeOk (est : V → Nat) (t : Node κ V) (k : List κ) (v : V)
    (d : Nat) (r : Bool) :
    sizeOkB t = true → sizeOkB (postIns (insertImpl est t k v d r)) = true := by
  induction t, k, v, d, r using @insertImpl.induct κ V _ est with
  | case1 node v d r =>
    intro h
    simpa [insertImpl, postIns] using h
  | case2 hd tl v d r v0 a s =>
    intro h
    simpa [insertImpl, postIns] using h
  | case3 hd v d r m a s c existing hcond =>
    intro h
    unfold_let existing at hcond
    rw [insertImpl_last]
    rw [if_pos hcond]
    simpa [postIns] using h
  | case4 hd v d r m a s c existing hcond =>
    intro h
    unfold_let existing at hcond
    rw [insertImpl_last]
    rw [if_neg hcond]
    simp only [postIns]
    simp only [sizeOkB, Bool.and_eq_true, decide_eq_true_eq] at h ⊢
    obtain ⟨hsum, hokl⟩ := h
    refine ⟨?_, sizeOkL_set m hd _ hokl (sizeOk_leaf_est est v d)⟩
    cases hm : mapGet m hd with
    | none =>
      rw [sumSizes_set_none m hd _ hm]
      simp [hm, hsum]
    | some e =>
      rw [sumSizes_set_some m hd _ e hm]
      simp [hm, hsum]
      ring
  | case5 hd v d r m a s c hd2 tl2 child hm child' hres ih =>
    intro h
    rw [insertImpl_step_some est m a s c hd (hd2 :: tl2) v d r child (by simp) hm]
    have hcc := insertImpl_error_eq est child (hd2 :: tl2) v d r child' hres
    simp only [hres, postIns]
    rw [hcc, mapSet_self_id m hd child hm]
    simpa using h
  | case6 hd v d r m a s c hd2 tl2 child hm sz1 diff1 ins1 child' hres ih =>
    intro h
    rw [insertImpl_step_some est m a s c hd (hd2 :: tl2) v d r child (by simp) hm]
    simp only [hres, postIns]
    simp only [sizeOkB, Bool.and_eq_true, decide_eq_true_eq] at h ⊢
    obtain ⟨hsum, hokl⟩ := h
    have hchild : sizeOkB child = true := sizeOkL_get m hd child hokl hm
    have hchild' : sizeOkB child' = true := by
      have := ih hchild
      rwa [hres, postIns] at this
    have hdel := insertImpl_delta est child (hd2 :: tl2) v d r sz1 diff1 ins1 child' hres
    refine ⟨?_, sizeOkL_set m hd child' hokl hchild'⟩
    rw [sumSizes_set_some m hd child' child hm, hdel, hsum]
    ring
  | case7 hd v d r m a s c hd2 tl2 hm child child' hres ih =>
    exact absurd hres (insertImpl_fresh_ok est v d r (hd2 :: tl2) d child')
  | case8 hd v d r m a s c hd2 tl2 hm child sz1 diff1 ins1 child' hres ih =>
    intro h
    rw [insertImpl_step_none est m a s c hd (hd2 :: tl2) v d r (by simp) hm]
    simp only [hres, postIns]
    simp only [sizeOkB, Bool.and_eq_true, decide_eq_true_eq] at h ⊢
    obtain ⟨hsum, hokl⟩ := h
    have hchild' : sizeOkB child' = true := by
      have := ih (sizeOk_fresh d)
      rwa [hres, postIns] at this
    have hdel := insertImpl_delta est (.branch [] d 0 0) (hd2 :: tl2) v d r sz1 diff1 ins1 child' hres
    simp only [sizeN_branch] at hdel
    have hm1 : mapGet (mapSet m hd (Node.branch [] d 0 0)) hd = some (Node.branch [] d 0 0) :=
      mapGet_set_self m hd _
    have hokl1 : sizeOkL (mapSet m hd (Node.branch [] d 0 0)) = true :=
      sizeOkL_set m hd _ hokl (sizeOk_fresh d)
    refine ⟨?_, sizeOkL_set _ hd child' hokl1 hchild'⟩
    rw [sumSizes_set_some _ hd child' _ hm1, sumSizes_set_none m hd _ hm, hdel, hsum]
    simp


/-- `deleteImpl` preserves the size invariant, whether it returns or throws. -/
theorem deleteImpl_sizeOk (t : Node κ V) (k : List κ) :
    sizeOkB t = true → sizeOkB (postG (deleteImpl t k)) = true := by
  induction t, k using deleteImpl.induct with
  | case1 node => intro h; simpa [deleteImpl, postG] using h
  | case2 hd tl v0 a s => intro h; simpa [deleteImpl, postG] using h
  | case3 hd m a s c hm =>
    intro h
    rw [deleteImpl_last, hm]
    simpa [postG] using h
  | case4 hd m a s c entry hm =>
    intro h
    rw [deleteImpl_last, hm]
    simp only [postG]
    simp only [sizeOkB, Bool.and_eq_true, decide_eq_true_eq] at h ⊢
    obtain ⟨hsum, hokl⟩ := h
    refine ⟨?_, sizeOkL_delete m hd hokl⟩
    rw [sumSizes_delete m hd entry hm, hsum]
  | case5 hd m a s c hd2 tl2 hm =>
    intro h
    rw [deleteImpl_step_none m a s c hd (hd2 :: tl2) (by simp) hm]
    simpa [postG] using h
  | case6 hd m a s c hd2 tl2 child hm child' hres ih =>
    intro h
    rw [deleteImpl_step_some m a s c hd (hd2 :: tl2) child (by simp) hm]
    have hcc := deleteImpl_error_eq child (hd2 :: tl2) child' hres
    simp only [hres, postG]
    rw [hcc, mapSet_self_id m hd child hm]
    simpa using h
  | case7 hd m a s c hd2 tl2 child hm child' hres ih =>
    intro h
    rw [deleteImpl_step_some m a s c hd (hd2 :: tl2) child (by simp) hm]
    have hcc := deleteImpl_none_eq child (hd2 :: tl2) child' hres
    simp only [hres, postG]
    rw [hcc, mapSet_self_id m hd child hm]
    simpa using h
  | case8 hd m a s c hd2 tl2 child hm d1 child' hres ih =>
    intro h
    rw [deleteImpl_step_some m a s c hd (hd2 :: tl2) child (by simp) hm]
    simp only [hres, postG]
    simp only [sizeOkB, Bool.and_eq_true, decide_eq_true_eq] at h ⊢
    obtain ⟨hsum, hokl⟩ := h
    have hchild : sizeOkB child = true := sizeOkL_get m hd child hokl hm
    have hchild' : sizeOkB child' = true := by
      have := ih hchild
      rwa [hres, postG] at this
    have hdel := deleteImpl_delta child (hd2 :: tl2) d1 child' hres
    refine ⟨?_, sizeOkL_set m hd child' hokl hchild'⟩
    rw [sumSizes_set_some m hd child' child hm, hdel, hsum]
    ring

/-- `getImpl` preserves the size invariant: it only rewrites timestamps. -/
theorem getImpl_sizeOk (t : Node κ V) (k : List κ) (touch : Bool) (now : Nat) :
    sizeOkB (postG (getImpl t k touch now)) = sizeOkB t := by
  rw [← sizeOkB_stripA, getImpl_strip k t touch now, sizeOkB_stripA]

/-- `getImpl` preserves the root size slot. -/
theorem getImpl_sizeN (t : Node κ V) (k : List κ) (touch : Bool) (now : Nat) :
    (postG (getImpl t k touch now)).sizeN = t.sizeN := by
  rw [← sizeN_stripA, getImpl_strip k t touch now, sizeN_stripA]

end ImplLemmas

section CachePreservation

variable {κ V : Type} [DecidableEq κ]

open Node MemCache

/-- Final tree extractor for `pruneLoop` results. -/
def postP : Except (Node κ V) (List (PruneUnit κ) × Node κ V) → Node κ V
  | .ok (_, t) => t
  | .error t => t

/-- The eviction loop preserves the size invariant: it only applies
`deleteImpl`. -/
theorem pruneLoop_sizeOk (cap : Int) (us : List (PruneUnit κ)) :
    ∀ t : Node κ V, sizeOkB t = true → sizeOkB (postP (pruneLoop cap us t)) = true := by
  induction us with
  | nil => intro t h; simpa [pruneLoop, postP] using h
  | cons u us ih =>
    intro t h
    by_cases hle : t.sizeN ≤ cap
    · simp only [pruneLoop, if_pos hle]
      simpa [postP] using h
    · simp only [pruneLoop, if_neg hle]
      cases hdel : deleteImpl t u.key with
      | error t' =>
        have hthis := deleteImpl_sizeOk t u.key h
        rw [hdel] at hthis
        simpa [postP, postG] using hthis
      | ok res =>
        obtain ⟨r1, t'⟩ := res
        have hok' : sizeOkB t' = true := by
          have hthis := deleteImpl_sizeOk t u.key h
          rw [hdel] at hthis
          simpa [postG] using hthis
        cases hloop : pruneLoop cap us t' with
        | error t'' =>
          have hthis := ih t' hok'
          rw [hloop] at hthis
          simpa [postP, hloop] using hthis
        | ok res2 =>
          obtain ⟨ds, t''⟩ := res2
          have hthis := ih t' hok'
          rw [hloop] at hthis
          simpa [postP, hloop] using hthis

/-- `prune` preserves the size invariant. -/
theorem prune_sizeOk (c : Cache κ V) (now : Nat) (h : sizeOkB c.root = true) :
    sizeOkB (afterE (MemCache.prune c now)).root = true := by
  cases hcap : c.capacity with
  | none => simpa [MemCache.prune, hcap, afterE] using h
  | some cap =>
    by_cases hle : c.root.sizeN ≤ cap
    · simpa [MemCache.prune, hcap, MemCache.size, hle, afterE] using h
    · have hlp := pruneLoop_sizeOk cap
        (sortByAtime (flatten c.pruneDepth c.root [])) c.root h
      cases hloop : pruneLoop cap
          (sortByAtime (flatten c.pruneDepth c.root [])) c.root with
      | error t =>
        rw [hloop] at hlp
        simp only [postP] at hlp
        simpa [MemCache.prune, hcap, MemCache.size, hle, hloop, afterE] using hlp
      | ok res =>
        obtain ⟨ds, t⟩ := res
        rw [hloop] at hlp
        simp only [postP] at hlp
        simpa [MemCache.prune, hcap, MemCache.size, hle, hloop, afterE] using hlp

/-- `insertOne` preserves the size invariant (insert step plus optional
auto-prune, on both the normal and the exceptional path). -/
theorem insertOne_sizeOk (est : V → Nat) (c : Cache κ V) (k : List κ) (v : V)
    (r : Bool) (now : Nat) (h : sizeOkB c.root = true) :
    sizeOkB (afterE (MemCache.insertOne est c k v r now)).root = true := by
  have hins := insertImpl_sizeOk est c.root k v now r h
  cases hres : insertImpl est c.root k v now r with
  | ok res =>
    obtain ⟨sz, diff, ins, t⟩ := res
    rw [hres] at hins
    simp only [postIns] at hins
    simp only [MemCache.insertOne, hres]
    by_cases hp : shouldAutoPrune { c with root := t } now
    · simp only [if_pos hp]
      have := prune_sizeOk { c with root := t } now hins
      cases hpr : MemCache.prune { c with root := t } now with
      | ok res2 =>
        obtain ⟨ds, c2⟩ := res2
        rw [hpr] at this
        simpa [afterE] using this
      | error c2 =>
        rw [hpr] at this
        simpa [afterE] using this
    · simpa [if_neg hp, afterE] using hins
  | error t =>
    rw [hres] at hins
    simp only [postIns] at hins
    simp only [MemCache.insertOne, hres]
    by_cases hp : shouldAutoPrune { c with root := t } now
    · simp only [if_pos hp]
      have := prune_sizeOk { c with root := t } now hins
      cases hpr : MemCache.prune { c with root := t } now with
      | ok res2 =>
        obtain ⟨ds, c2⟩ := res2
        rw [hpr] at this
        simpa [afterE] using this
      | error c2 =>
        rw [hpr] at this
        simpa [afterE] using this
    · simpa [if_neg hp, afterE] using hins

/-- The batch loop of `insertMany` preserves the size invariant. -/
theorem insertManyAux_sizeOk (est : V → Nat) (entries : List (List κ × V)) :
    ∀ (t : Node κ V) (now : Nat) (r : Bool), sizeOkB t = true →
      sizeOkB (match insertManyAux est t entries now r with
               | .ok (_, t') => t'
               | .error t' => t') = true := by
  induction entries with
  | nil => intro t now r h; simpa [insertManyAux] using h
  | cons e rest ih =>
    intro t now r h
    obtain ⟨k, v⟩ := e
    have hins := insertImpl_sizeOk est t k v now r h
    cases hres : insertImpl est t k v now r with
    | error t' =>
      rw [hres] at hins
      simp only [postIns] at hins
      simpa [insertManyAux, hres] using hins
    | ok res =>
      obtain ⟨sz, diff, ins, t'⟩ := res
      rw [hres] at hins
      simp only [postIns] at hins
      have := ih t' now r hins
      cases haux : insertManyAux est t' rest now r with
      | error t'' =>
        rw [haux] at this
        simpa [insertManyAux, hres, haux] using this
      | ok res2 =>
        obtain ⟨total, t''⟩ := res2
        rw [haux] at this
        simpa [insertManyAux, hres, haux] using this

/-- `insertMany` preserves the size invariant. -/
theorem insertMany_sizeOk (est : V → Nat) (c : Cache κ V)
    (entries : List (List κ × V)) (r : Bool) (now : Nat)
    (h : sizeOkB c.root = true) :
    sizeOkB (afterE (MemCache.insertMany est c entries r now)).root = true := by
  have haux := insertManyAux_sizeOk est entries c.root now r h
  cases hres : insertManyAux est c.root entries now r with
  | error t =>
    rw [hres] at haux
    simpa [MemCache.insertMany, hres, afterE] using haux
  | ok res =>
    obtain ⟨total, t⟩ := res
    rw [hres] at haux
    simp only at haux
    simp only [MemCache.insertMany, hres]
    by_cases hp : shouldAutoPrune { c with root := t } now
    · simp only [if_pos hp]
      have := prune_sizeOk { c with root := t } now haux
      cases hpr : MemCache.prune { c with root := t } now with
      | ok res2 =>
        obtain ⟨ds, c2⟩ := res2
        rw [hpr] at this
        simpa [afterE] using this
      | error c2 =>
        rw [hpr] at this
        simpa [afterE] using this
    · simpa [if_neg hp, afterE] using haux

/-- `get` preserves the size invariant on both paths. -/
theorem get_sizeOk (c : Cache κ V) (k : List κ) (touch : Bool) (now : Nat)
    (h : sizeOkB c.root = true) :
    sizeOkB (afterE (MemCache.get c k touch now)).root = true := by
  have hg := getImpl_sizeOk c.root k touch now
  cases hres : getImpl c.root k touch now with
  | error t =>
    rw [hres] at hg
    simp only [postG] at hg
    simpa [MemCache.get, hres, afterE, hg] using h
  | ok res =>
    obtain ⟨r1, t⟩ := res
    rw [hres] at hg
    simp only [postG] at hg
    simpa [MemCache.get, hres, afterE, hg] using h

/-- `ensure` preserves the size invariant. -/
theorem ensure_sizeOk (est : V → Nat) (c : Cache κ V) (k : List κ) (v : V)
    (now : Nat) (h : sizeOkB c.root = true) :
    sizeOkB (afterE (MemCache.ensure est c k v now)).root = true := by
  have hg := get_sizeOk c k false now h
  cases hres : MemCache.get c k false now with
  | error c' =>
    rw [hres] at hg
    simpa [MemCache.ensure, hres, afterE] using hg
  | ok res =>
    obtain ⟨ex, c'⟩ := res
    rw [hres] at hg
    simp only [afterE] at hg
    cases ex with
    | some ex0 => simpa [MemCache.ensure, hres, afterE] using hg
    | none =>
      have hio := insertOne_sizeOk est c' k v false now hg
      cases hins : MemCache.insertOne est c' k v false now with
      | error c'' =>
        rw [hins] at hio
        simpa [MemCache.ensure, hres, hins, afterE] using hio
      | ok res2 =>
        obtain ⟨sz, c''⟩ := res2
        rw [hins] at hio
        simpa [MemCache.ensure, hres, hins, afterE] using hio

/-- `deleteOne` preserves the size invariant. -/
theorem deleteOne_sizeOk (c : Cache κ V) (k : List κ)
    (h : sizeOkB c.root = true) :
    sizeOkB (afterD (MemCache.deleteOne c k)).root = true := by
  have hd := deleteImpl_sizeOk c.root k h
  cases hres : deleteImpl c.root k with
  | error t =>
    rw [hres] at hd
    simpa [MemCache.deleteOne, hres, afterD, postG] using hd
  | ok res =>
    obtain ⟨r1, t⟩ := res
    rw [hres] at hd
    simpa [MemCache.deleteOne, hres, afterD, postG] using hd

/-- `deleteMany` preserves the size invariant. -/
theorem deleteMany_sizeOk (ks : List (List κ)) :
    ∀ c : Cache κ V, sizeOkB c.root = true →
      sizeOkB (afterD (MemCache.deleteMany c ks)).root = true := by
  induction ks with
  | nil => intro c h; simpa [MemCache.deleteMany, afterD] using h
  | cons k ks ih =>
    intro c h
    have hone := deleteOne_sizeOk c k h
    cases hres : MemCache.deleteOne c k with
    | error c' =>
      rw [hres] at hone
      simpa [MemCache.deleteMany, hres, afterD] using hone
    | ok c' =>
      rw [hres] at hone
      simp only [afterD] at hone
      have := ih c' hone
      simpa [MemCache.deleteMany, hres] using this

/-- `clear` preserves the size invariant (the emptied root trivially
satisfies it). -/
theorem clear_sizeOk (c : Cache κ V) (h : sizeOkB c.root = true) :
    sizeOkB (MemCache.clear c).root = true := by
  cases hr : c.root with
  | leaf v a s =>
    rw [hr] at h
    simpa [MemCache.clear, hr] using h
  | branch m a s cnt => simp [MemCache.clear, hr, sizeOkB, sumSizes, sizeOkL]

/-- Every public mutating operation preserves the size invariant. -/
theorem applyOp_sizeOk (est : V → Nat) (c : Cache κ V) (op : Op κ V)
    (h : sizeOkB c.root = true) :
    sizeOkB (applyOp est c op).root = true := by
  cases op with
  | insertOne k v r now => exact insertOne_sizeOk est c k v r now h
  | insertMany es r now => exact insertMany_sizeOk est c es r now h
  | ensure k v now => exact ensure_sizeOk est c k v now h
  | deleteOne k => exact deleteOne_sizeOk c k h
  | deleteMany ks => exact deleteMany_sizeOk ks c h
  | clear => exact clear_sizeOk c h
  | prune now => exact prune_sizeOk c now h

/-- Any sequence of public operations preserves the size invariant. -/
theorem applyOps_sizeOk (est : V → Nat) (ops : List (Op κ V)) :
    ∀ c : Cache κ V, sizeOkB c.root = true →
      sizeOkB (applyOps est c ops).root = true := by
  induction ops with
  | nil => intro c h; simpa [applyOps] using h
  | cons op ops ih =>
    intro c h
    simp only [applyOps]
    exact ih _ (applyOp_sizeOk est c op h)

/-- A freshly constructed cache (empty root, then `insertMany` of the initial
values) satisfies the size invariant. -/
theorem mkCache_sizeOk (est : V → Nat) (opts : MemCacheOptions κ V) (now : Nat) :
    sizeOkB (mkCache est opts now).root = true := by
  have hbase : sizeOkB (Node.branch ([] : List (κ × Node κ V)) now 0 0) = true :=
    sizeOk_fresh now
  have := insertMany_sizeOk est
    { root := .branch [] now 0 0
      capacity := opts.capacity
      lastPruneAt := now
      autoPrune := opts.autoPrune
      autoPruneInterval := opts.autoPruneInterval
      pruneDepth := opts.pruneDepth } opts.values true now hbase
  cases hres : MemCache.insertMany est
      { root := (.branch [] now 0 0 : Node κ V)
        capacity := opts.capacity
        lastPruneAt := now
        autoPrune := opts.autoPrune
        autoPruneInterval := opts.autoPruneInterval
        pruneDepth := opts.pruneDepth } opts.values true now with
  | ok res =>
    obtain ⟨total, c⟩ := res
    rw [hres] at this
    simpa [mkCache, hres, afterE] using this
  | error c =>
    rw [hres] at this
    simpa [mkCache, hres, afterE] using this

end CachePreservation

section PathLemmas

variable {κ V : Type} [DecidableEq κ]

open Node

@[simp] theorem atimeN_setAtime (t : Node κ V) (now : Nat) :
    (t.setAtime now).atimeN = now := by
  cases t <;> simp [Node.setAtime]

@[simp] theorem nodeAtQ_nil (t : Node κ V) : nodeAtQ t [] = some t := by
  cases t <;> rfl

theorem nodeAtQ_setAtime (t : Node κ V) (now : Nat) (h : κ) (q : List κ) :
    nodeAtQ (t.setAtime now) (h :: q) = nodeAtQ t (h :: q) := by
  cases t <;> simp [Node.setAtime, nodeAtQ]

@[simp] theorem isPre_nil (k : List κ) : isPre ([] : List κ) k = true := by
  cases k <;> simp [isPre]

@[simp] theorem isPre_cons_nil (a : κ) (as : List κ) :
    isPre (a :: as) ([] : List κ) = false := rfl

theorem isPre_cons_cons (a b : κ) (as bs : List κ) :
    isPre (a :: as) (b :: bs) = (decide (a = b) && isPre as bs) := rfl

/-- Unfolding equation for `getImpl` with a nonempty key. -/
theorem getImpl_cons (t : Node κ V) (hd : κ) (tl : List κ) (touch : Bool)
    (now : Nat) :
    getImpl t (hd :: tl) touch now =
      match (if touch then t.setAtime now else t) with
      | .leaf v a s => .error (.leaf v a s)
      | .branch m a s c =>
        match mapGet m hd with
        | none => .ok (none, .branch m a s c)
        | some child =>
          match getImpl child tl touch now with
          | .error child' => .error (.branch (mapSet m hd child') a s c)
          | .ok (r, child') => .ok (r, .branch (mapSet m hd child') a s c) := rfl

/-- A leaf stored at a key path is found by `getImpl` with its value and size
intact; only its timestamp may have been refreshed. -/
theorem getImpl_found (k : List κ) :
    ∀ (t : Node κ V) (v : V) (a : Nat) (s : Int) (touch : Bool) (now : Nat),
      nodeAtQ t k = some (.leaf v a s) →
      ∃ t', getImpl t k touch now =
        .ok (some (.leaf v (if touch then now else a) s), t') := by
  induction k with
  | nil =>
    intro t v a s touch now h
    simp only [nodeAtQ_nil, Option.some.injEq] at h
    subst h
    cases touch <;> exact ⟨_, rfl⟩
  | cons hd tl ih =>
    intro t v a s touch now h
    cases t with
    | leaf v0 a0 s0 => simp [nodeAtQ] at h
    | branch m a0 s0 c0 =>
      simp only [nodeAtQ] at h
      cases hm : mapGet m hd with
      | none => rw [hm] at h; simp at h
      | some child =>
        rw [hm] at h
        obtain ⟨t', ht'⟩ := ih child v a s touch now h
        cases touch with
        | false =>
          refine ⟨.branch (mapSet m hd t') a0 s0 c0, ?_⟩
          simp [getImpl, hm, ht']
        | true =>
          refine ⟨.branch (mapSet m hd t') now s0 c0, ?_⟩
          simp [getImpl, Node.setAtime, hm, ht']

/-- A successful `insertOne`-style store (`replace = true`, nonempty key)
leaves the inserted leaf at the key path, carrying the insertion date and the
estimated size. -/
theorem insertImpl_stores (est : V → Nat) (t : Node κ V) (k : List κ) (v : V)
    (d : Nat) (r : Bool) :
    ∀ sz diff ins t', insertImpl est t k v d r = .ok (sz, diff, ins, t') →
      r = true → k ≠ [] → nodeAtQ t' k = some (.leaf v d (est v : Int)) := by
  induction t, k, v, d, r using @insertImpl.induct κ V _ est with
  | case1 node v d r => intro sz diff ins t' h hr hk; exact absurd rfl hk
  | case2 hd tl v d r v0 a s => intro sz diff ins t' h hr hk; simp [insertImpl] at h
  | case3 hd v d r m a s c existing hcond =>
    intro sz diff ins t' h hr hk
    unfold_let existing at hcond
    rw [hr] at hcond
    exact absurd hcond.1 (by simp)
  | case4 hd v d r m a s c existing hcond =>
    intro sz diff ins t' h hr hk
    rw [insertImpl_last] at h
    split at h
    · rename_i hcc
      unfold_let existing at hcond
      exact absurd hcc hcond
    · simp only [Except.ok.injEq, Prod.mk.injEq] at h
      rw [← h.2.2.2]
      simp [nodeAtQ, mapGet_set_self]
  | case5 hd v d r m a s c hd2 tl2 child hm child' hres ih =>
    intro sz diff ins t' h hr hk
    rw [insertImpl_step_some est m a s c hd (hd2 :: tl2) v d r child (by simp) hm] at h
    simp [hres] at h
  | case6 hd v d r m a s c hd2 tl2 child hm sz1 diff1 ins1 child' hres ih =>
    intro sz diff ins t' h hr hk
    rw [insertImpl_step_some est m a s c hd (hd2 :: tl2) v d r child (by simp) hm] at h
    simp only [hres, Except.ok.injEq, Prod.mk.injEq] at h
    rw [← h.2.2.2]
    simp only [nodeAtQ, mapGet_set_self]
    exact ih sz1 diff1 ins1 child' hres hr (by simp)
  | case7 hd v d r m a s c hd2 tl2 hm child child' hres ih =>
    intro sz diff ins t' h hr hk
    exact absurd hres (insertImpl_fresh_ok est v d r (hd2 :: tl2) d child')
  | case8 hd v d r m a s c hd2 tl2 hm child sz1 diff1 ins1 child' hres ih =>
    intro sz diff ins t' h hr hk
    rw [insertImpl_step_none est m a s c hd (hd2 :: tl2) v d r (by simp) hm] at h
    simp only [hres, Except.ok.injEq, Prod.mk.injEq] at h
    rw [← h.2.2.2]
    simp only [nodeAtQ, mapGet_set_self]
    exact ih sz1 diff1 ins1 child' hres hr (by simp)

/-- Classification of a `getImpl` outcome: `none` when the traversal threw,
`some (some v)` when it found a leaf with value `v`, `some none` when the
result is absent or a branch (what `CachePartial.get` maps to `undefined`). -/
def getRes (t : Node κ V) (k : List κ) (touch : Bool) (now : Nat) :
    Option (Option V) :=
  match getImpl t k touch now with
  | .error _ => none
  | .ok (some (.leaf v _ _), _) => some (some v)
  | .ok (_, _) => some none

/-- After a `deleteImpl` that returned normally, a `get` on the same key
returns normally with an absent result: the value is gone. -/
theorem deleteImpl_then_get (t : Node κ V) (k : List κ) :
    ∀ r1 t', deleteImpl t k = .ok (r1, t') → nodupN t = true →
      t.isBranchN = true → ∀ (touch : Bool) (now : Nat),
      getRes t' k touch now = some none := by
  induction t, k using deleteImpl.induct with
  | case1 node =>
    intro r1 t' h hnd hbr touch now
    simp only [deleteImpl, Except.ok.injEq, Prod.mk.injEq] at h
    obtain ⟨-, h2⟩ := h
    subst h2
    cases node with
    | leaf v a s => simp [Node.isLeafN, Node.isBranchN] at hbr
    | branch m a s c =>
      cases touch <;> simp [getRes, getImpl, Node.setAtime]
  | case2 hd tl v0 a s => intro r1 t' h; simp [deleteImpl] at h
  | case3 hd m a s c hm =>
    intro r1 t' h hnd hbr touch now
    rw [deleteImpl_last, hm] at h
    simp only [Except.ok.injEq, Prod.mk.injEq] at h
    obtain ⟨-, h2⟩ := h
    subst h2
    cases touch <;> simp [getRes, getImpl, Node.setAtime, hm]
  | case4 hd m a s c entry hm =>
    intro r1 t' h hnd hbr touch now
    rw [deleteImpl_last, hm] at h
    simp only [Except.ok.injEq, Prod.mk.injEq] at h
    obtain ⟨-, h2⟩ := h
    subst h2
    have hdel : mapGet (mapDelete m hd) hd = none :=
      mapGet_delete_self m hd (by simpa [nodupN] using hnd)
    cases touch <;> simp [getRes, getImpl, Node.setAtime, hdel]
  | case5 hd m a s c hd2 tl2 hm =>
    intro r1 t' h hnd hbr touch now
    rw [deleteImpl_step_none m a s c hd (hd2 :: tl2) (by simp) hm] at h
    simp only [Except.ok.injEq, Prod.mk.injEq] at h
    obtain ⟨-, h2⟩ := h
    subst h2
    cases touch <;> simp [getRes, getImpl, Node.setAtime, hm]
  | case6 hd m a s c hd2 tl2 child hm child' hres ih =>
    intro r1 t' h
    rw [deleteImpl_step_some m a s c hd (hd2 :: tl2) child (by simp) hm] at h
    simp [hres] at h
  | case7 hd m a s c hd2 tl2 child hm child' hres ih =>
    intro r1 t' h hnd hbr touch now
    rw [deleteImpl_step_some m a s c hd (hd2 :: tl2) child (by simp) hm] at h
    simp only [hres, Except.ok.injEq, Prod.mk.injEq] at h
    obtain ⟨-, h2⟩ := h
    subst h2
    have hbrc : child.isBranchN = true := by
      cases child with
      | leaf vv aa ss => simp [deleteImpl] at hres
      | branch mm aa ss cc => rfl
    have hndc : nodupN child = true :=
      nodupL_get m hd child (by simpa [nodupN] using hnd) hm
    have hIH := ih none child' hres hndc hbrc touch now
    cases hg2 : getImpl child' (hd2 :: tl2) touch now with
    | error tc => simp [getRes, hg2] at hIH
    | ok res =>
      obtain ⟨rc, tc⟩ := res
      cases rc with
      | none =>
        cases touch <;>
          (simp only [getRes]
           rw [getImpl_cons]
           simp [Node.setAtime, mapGet_set_self, hg2])
      | some n =>
        cases n with
        | leaf lv la ls => simp [getRes, hg2] at hIH
        | branch mm aa ss cc =>
          cases touch <;>
            (simp only [getRes]
             rw [getImpl_cons]
             simp [Node.setAtime, mapGet_set_self, hg2])
  | case8 hd m a s c hd2 tl2 child hm d1 child' hres ih =>
    intro r1 t' h hnd hbr touch now
    rw [deleteImpl_step_some m a s c hd (hd2 :: tl2) child (by simp) hm] at h
    simp only [hres, Except.ok.injEq, Prod.mk.injEq] at h
    obtain ⟨-, h2⟩ := h
    subst h2
    have hbrc : child.isBranchN = true := by
      cases child with
      | leaf vv aa ss => simp [deleteImpl] at hres
      | branch mm aa ss cc => rfl
    have hndc : nodupN child = true :=
      nodupL_get m hd child (by simpa [nodupN] using hnd) hm
    have hIH := ih (some d1) child' hres hndc hbrc touch now
    cases hg2 : getImpl child' (hd2 :: tl2) touch now with
    | error tc => simp [getRes, hg2] at hIH
    | ok res =>
      obtain ⟨rc, tc⟩ := res
      cases rc with
      | none =>
        cases touch <;>
          (simp only [getRes]
           rw [getImpl_cons]
           simp [Node.setAtime, mapGet_set_self, hg2])
      | some n =>
        cases n with
        | leaf lv la ls => simp [getRes, hg2] at hIH
        | branch mm aa ss cc =>
          cases touch <;>
            (simp only [getRes]
             rw [getImpl_cons]
             simp [Node.setAtime, mapGet_set_self, hg2])

/-- `insertImpl` with `replace = false` on a key holding a leaf is a no-op up
to ancestor access-time refreshes: it returns `(null, 0, false)` and the
timestamp-erased tree is unchanged. -/
theorem insertImpl_noop (est : V → Nat) (k : List κ) :
    ∀ (t : Node κ V) (v lv : V) (la : Nat) (ls : Int) (d : Nat),
      nodeAtQ t k = some (.leaf lv la ls) →
      ∃ t', insertImpl est t k v d false = .ok (none, 0, false, t') ∧
        stripA t' = stripA t := by
  induction k with
  | nil =>
    intro t v lv la ls d h
    exact ⟨t, by cases t <;> rfl, rfl⟩
  | cons hd tl ih =>
    intro t v lv la ls d h
    cases t with
    | leaf v0 a0 s0 => simp [nodeAtQ] at h
    | branch m a0 s0 c0 =>
      simp only [nodeAtQ] at h
      cases hm : mapGet m hd with
      | none => rw [hm] at h; simp at h
      | some child =>
        rw [hm] at h
        cases tl with
        | nil =>
          simp only [nodeAtQ_nil, Option.some.injEq] at h
          refine ⟨.branch m a0 s0 c0, ?_, rfl⟩
          rw [insertImpl_last]
          rw [if_pos ?_]
          exact ⟨rfl, by simp [hm]⟩
        | cons hd2 tl2 =>
          obtain ⟨child', hres, hstrip⟩ := ih child v lv la ls d h
          refine ⟨.branch (mapSet m hd child') d (s0 + 0)
            (c0 + if false then 1 else 0), ?_, ?_⟩
          · rw [insertImpl_step_some est m a0 s0 c0 hd (hd2 :: tl2) v d false child
              (by simp) hm]
            rw [hres]
          · simp [stripA, stripAL_set_congr m hd child child' hm hstrip]

/-- What a no-op insert (`replace = false` at an existing leaf) does to
access timestamps: the recursive arm rebuilds every branch strictly above the
terminal branch with the call date even though nothing was stored, while the
terminal branch (the leaf's parent), the leaf itself, and every node off that
ancestor path keep exactly their previous state. -/
theorem insertImpl_noop_atimes (est : V → Nat) (k : List κ) :
    ∀ (t : Node κ V) (v lv : V) (la : Nat) (ls : Int) (d : Nat) (t' : Node κ V),
      nodeAtQ t k = some (.leaf lv la ls) →
      insertImpl est t k v d false = .ok (none, 0, false, t') →
      ((∀ p, isPre p k.dropLast = true → p ≠ k.dropLast →
          ∃ n', nodeAtQ t' p = some n' ∧ n'.atimeN = d) ∧
       nodeAtQ t' k.dropLast = nodeAtQ t k.dropLast ∧
       (∀ p, isPre p k.dropLast = false → nodeAtQ t' p = nodeAtQ t p)) := by
  induction k with
  | nil =>
    intro t v lv la ls d t' hq h
    have ht : t = t' := by
      cases t <;> simpa [insertImpl] using h
    subst ht
    refine ⟨?_, rfl, fun p _ => rfl⟩
    intro p hp hne
    cases p with
    | nil => exact absurd rfl hne
    | cons p0 q => simp [isPre_cons_nil] at hp
  | cons hd tl ih =>
    intro t v lv la ls d t' hq h
    cases t with
    | leaf v0 a0 s0 => simp [nodeAtQ] at hq
    | branch m a0 s0 c0 =>
      simp only [nodeAtQ] at hq
      cases hm : mapGet m hd with
      | none => rw [hm] at hq; simp at hq
      | some child =>
        rw [hm] at hq
        cases tl with
        | nil =>
          rw [insertImpl_last] at h
          split at h
          · simp only [Except.ok.injEq, Prod.mk.injEq] at h
            obtain ⟨-, -, -, h4⟩ := h
            subst h4
            refine ⟨?_, rfl, fun p _ => rfl⟩
            intro p hp hne
            cases p with
            | nil => exact absurd rfl hne
            | cons p0 q => simp [isPre_cons_nil] at hp
          · rename_i hcond
            exact absurd ⟨rfl, by simp [hm]⟩ hcond
        | cons hd2 tl2 =>
          obtain ⟨child', hres, -⟩ :=
            insertImpl_noop est (hd2 :: tl2) child v lv la ls d hq
          rw [insertImpl_step_some est m a0 s0 c0 hd (hd2 :: tl2) v d false child
            (by simp) hm] at h
          rw [hres] at h
          simp only [Except.ok.injEq, Prod.mk.injEq] at h
          obtain ⟨-, -, -, h4⟩ := h
          obtain ⟨iha, ihb, ihc⟩ :=
            ih child v lv la ls d child' hq hres
          have hdl : (hd :: hd2 :: tl2).dropLast = hd :: (hd2 :: tl2).dropLast := rfl
          refine ⟨?_, ?_, ?_⟩
          · intro p hp hne
            rw [hdl] at hp hne
            cases p with
            | nil =>
              refine ⟨_, nodeAtQ_nil _, ?_⟩
              rw [← h4]
              simp
            | cons p0 q =>
              rw [isPre_cons_cons] at hp
              simp only [Bool.and_eq_true, decide_eq_true_eq] at hp
              obtain ⟨hp0, hpq⟩ := hp
              subst hp0
              have hqne : q ≠ (hd2 :: tl2).dropLast := by
                intro he
                exact hne (by rw [he])
              rw [← h4]
              simp only [nodeAtQ, mapGet_set_self]
              exact iha q hpq hqne
          · rw [hdl, ← h4]
            simp only [nodeAtQ, mapGet_set_self, hm]
            exact ihb
          · intro p hp
            rw [hdl] at hp
            cases p with
            | nil => simp [isPre] at hp
            | cons p0 q =>
              by_cases hp0 : p0 = hd
              · subst hp0
                have hq2 : isPre q ((hd2 :: tl2).dropLast) = false := by
                  simpa [isPre_cons_cons] using hp
                rw [← h4]
                simp only [nodeAtQ, mapGet_set_self, hm]
                exact ihc q hq2
              · rw [← h4]
                simp only [nodeAtQ, mapGet_set_ne m hd child' p0 hp0]

/-- A touching `getImpl` stamps every node on the existing part of the key
path with `now` and leaves every node off the path exactly as it was. -/
theorem getImpl_stamps (k : List κ) :
    ∀ (t : Node κ V) (now : Nat) (r : Option (Node κ V)) (t' : Node κ V),
      getImpl t k true now = .ok (r, t') →
      ((∀ p, isPre p k = true → ∀ n, nodeAtQ t p = some n →
        ∃ n', nodeAtQ t' p = some n' ∧ n'.atimeN = now) ∧
       (∀ p, isPre p k = false → nodeAtQ t' p = nodeAtQ t p)) := by
  induction k with
  | nil =>
    intro t now r t' hget
    simp only [getImpl, Except.ok.injEq, Prod.mk.injEq, if_true] at hget
    obtain ⟨-, h2⟩ := hget
    subst h2
    constructor
    · intro p hp n hn
      cases p with
      | nil =>
        simp only [nodeAtQ_nil, Option.some.injEq] at hn
        exact ⟨t.setAtime now, by simp, by simp⟩
      | cons p0 q => simp [isPre] at hp
    · intro p hp
      cases p with
      | nil => simp at hp
      | cons p0 q => exact nodeAtQ_setAtime t now p0 q
  | cons hd tl ih =>
    intro t now r t' hget
    cases t with
    | leaf v0 a0 s0 =>
      rw [getImpl_cons] at hget
      simp [Node.setAtime] at hget
    | branch m a0 s0 c0 =>
      rw [getImpl_cons] at hget
      simp only [if_true, Node.setAtime] at hget
      cases hm : mapGet m hd with
      | none =>
        rw [hm] at hget
        simp only [Except.ok.injEq, Prod.mk.injEq] at hget
        obtain ⟨-, h2⟩ := hget
        subst h2
        constructor
        · intro p hp n hn
          cases p with
          | nil => exact ⟨.branch m now s0 c0, by simp, by simp⟩
          | cons p0 q =>
            rw [isPre_cons_cons] at hp
            simp only [Bool.and_eq_true, decide_eq_true_eq] at hp
            obtain ⟨hp0, -⟩ := hp
            subst hp0
            simp [nodeAtQ, hm] at hn
        · intro p hp
          cases p with
          | nil => simp at hp
          | cons p0 q => simp [nodeAtQ]
      | some child =>
        simp only [hm] at hget
        cases hrec : getImpl child tl true now with
        | error child' => rw [hrec] at hget; cases hget
        | ok res =>
          obtain ⟨rc, child'⟩ := res
          rw [hrec] at hget
          simp only [Except.ok.injEq, Prod.mk.injEq] at hget
          obtain ⟨-, h2⟩ := hget
          subst h2
          obtain ⟨ih1, ih2⟩ := ih child now rc child' hrec
          constructor
          · intro p hp n hn
            cases p with
            | nil => exact ⟨.branch (mapSet m hd child') now s0 c0, by simp, by simp⟩
            | cons p0 q =>
              rw [isPre_cons_cons] at hp
              simp only [Bool.and_eq_true, decide_eq_true_eq] at hp
              obtain ⟨hp0, hq⟩ := hp
              subst hp0
              simp only [nodeAtQ, hm] at hn
              simp only [nodeAtQ, mapGet_set_self]
              exact ih1 q hq n hn
          · intro p hp
            cases p with
            | nil => simp at hp
            | cons p0 q =>
              by_cases hp0 : p0 = hd
              · subst hp0
                have hq : isPre q tl = false := by
                  simpa [isPre_cons_cons] using hp
                simp only [nodeAtQ, mapGet_set_self, hm]
                exact ih2 q hq
              · simp only [nodeAtQ, mapGet_set_ne m hd child' p0 hp0]

/-- A storing `insertImpl` stamps every node on the key path (ancestors and
the new leaf) with the insertion date and leaves every node at a position
incomparable with the key exactly as it was. -/
theorem insertImpl_atimes (est : V → Nat) (t : Node κ V) (k : List κ) (v : V)
    (d : Nat) (r : Bool) :
    ∀ sz diff ins t', insertImpl est t k v d r = .ok (some sz, diff, ins, t') →
      ((∀ p, isPre p k = true → ∃ n', nodeAtQ t' p = some n' ∧ n'.atimeN = d) ∧
       (∀ p, isPre p k = false → isPre k p = false →
         nodeAtQ t' p = nodeAtQ t p)) := by
  induction t, k, v, d, r using @insertImpl.induct κ V _ est with
  | case1 node v d r =>
    intro sz diff ins t' h
    simp [insertImpl] at h
  | case2 hd tl v d r v0 a s =>
    intro sz diff ins t' h
    simp [insertImpl] at h
  | case3 hd v d r m a s c existing hcond =>
    intro sz diff ins t' h
    rw [insertImpl_last] at h
    split at h
    · simp at h
    · rename_i hcc
      unfold_let existing at hcond
      exact absurd hcond hcc
  | case4 hd v d r m a s c existing hcond =>
    intro sz diff ins t' h
    rw [insertImpl_last] at h
    split at h
    · simp at h
    · simp only [Except.ok.injEq, Prod.mk.injEq] at h
      obtain ⟨-, -, -, h4⟩ := h
      subst h4
      constructor
      · intro p hp
        cases p with
        | nil => exact ⟨_, nodeAtQ_nil _, by simp⟩
        | cons p0 q =>
          rw [isPre_cons_cons] at hp
          simp only [Bool.and_eq_true, decide_eq_true_eq] at hp
          obtain ⟨hp0, hq⟩ := hp
          subst hp0
          cases q with
          | nil =>
            refine ⟨.leaf v d (est v : Int), ?_, by simp⟩
            simp [nodeAtQ, mapGet_set_self]
          | cons q0 q1 => simp at hq
      · intro p hp hkp
        cases p with
        | nil => simp at hp
        | cons p0 q =>
          by_cases hp0 : p0 = hd
          · subst hp0
            have hiq : isPre ([] : List κ) q = false := by
              simpa [isPre_cons_cons] using hkp
            simp at hiq
          · simp only [nodeAtQ, mapGet_set_ne m hd _ p0 hp0]
  | case5 hd v d r m a s c hd2 tl2 child hm child' hres ih =>
    intro sz diff ins t' h
    rw [insertImpl_step_some est m a s c hd (hd2 :: tl2) v d r child (by simp) hm] at h
    simp [hres] at h
  | case6 hd v d r m a s c hd2 tl2 child hm sz1 diff1 ins1 child' hres ih =>
    intro sz diff ins t' h
    rw [insertImpl_step_some est m a s c hd (hd2 :: tl2) v d r child (by simp) hm] at h
    simp only [hres, Except.ok.injEq, Prod.mk.injEq] at h
    obtain ⟨h1, -, -, h4⟩ := h
    subst h4
    have hsz1 : sz1 = some sz := h1
    subst hsz1
    obtain ⟨ih1, ih2⟩ := ih sz diff1 ins1 child' hres
    constructor
    · intro p hp
      cases p with
      | nil => exact ⟨_, nodeAtQ_nil _, by simp⟩
      | cons p0 q =>
        rw [isPre_cons_cons] at hp
        simp only [Bool.and_eq_true, decide_eq_true_eq] at hp
        obtain ⟨hp0, hq⟩ := hp
        subst hp0
        simp only [nodeAtQ, mapGet_set_self]
        exact ih1 q hq
    · intro p hp hkp
      cases p with
      | nil => simp at hp
      | cons p0 q =>
        by_cases hp0 : p0 = hd
        · subst hp0
          have hq : isPre q (hd2 :: tl2) = false := by
            simpa [isPre_cons_cons] using hp
          have hq' : isPre (hd2 :: tl2) q = false := by
            simpa [isPre_cons_cons] using hkp
          simp only [nodeAtQ, mapGet_set_self, hm]
          exact ih2 q hq hq'
        · simp only [nodeAtQ, mapGet_set_ne m hd _ p0 hp0]
  | case7 hd v d r m a s c hd2 tl2 hm child child' hres ih =>
    intro sz diff ins t' h
    exact absurd hres (insertImpl_fresh_ok est v d r (hd2 :: tl2) d child')
  | case8 hd v d r m a s c hd2 tl2 hm child sz1 diff1 ins1 child' hres ih =>
    intro sz diff ins t' h
    rw [insertImpl_step_none est m a s c hd (hd2 :: tl2) v d r (by simp) hm] at h
    simp only [hres, Except.ok.injEq, Prod.mk.injEq] at h
    obtain ⟨h1, -, -, h4⟩ := h
    subst h4
    have hsz1 : sz1 = some sz := h1
    subst hsz1
    obtain ⟨ih1, ih2⟩ := ih sz diff1 ins1 child' hres
    constructor
    · intro p hp
      cases p with
      | nil => exact ⟨_, nodeAtQ_nil _, by simp⟩
      | cons p0 q =>
        rw [isPre_cons_cons] at hp
        simp only [Bool.and_eq_true, decide_eq_true_eq] at hp
        obtain ⟨hp0, hq⟩ := hp
        subst hp0
        simp only [nodeAtQ, mapGet_set_self]
        exact ih1 q hq
    · intro p hp hkp
      cases p with
      | nil => simp at hp
      | cons p0 q =>
        by_cases hp0 : p0 = hd
        · subst hp0
          have hq : isPre q (hd2 :: tl2) = false := by
            simpa [isPre_cons_cons] using hp
          have hq' : isPre (hd2 :: tl2) q = false := by
            simpa [isPre_cons_cons] using hkp
          simp only [nodeAtQ, mapGet_set_self]
          rw [ih2 q hq hq']
          cases q with
          | nil => simp [isPre] at hp
          | cons q0 q1 => simp [nodeAtQ, mapGet, hm]
        · simp only [nodeAtQ]
          rw [mapGet_set_ne _ hd _ p0 hp0, mapGet_set_ne m hd _ p0 hp0]


/-- `deleteImpl` never stamps: every surviving node keeps its access time. -/
theorem deleteImpl_atimes (t : Node κ V) (k : List κ) :
    ∀ r1 t', deleteImpl t k = .ok (r1, t') → nodupN t = true →
      ∀ p n', nodeAtQ t' p = some n' →
        ∃ n, nodeAtQ t p = some n ∧ n'.atimeN = n.atimeN := by
  induction t, k using deleteImpl.induct with
  | case1 node =>
    intro r1 t' h hnd p n' hp
    simp only [deleteImpl, Except.ok.injEq, Prod.mk.injEq] at h
    obtain ⟨-, h2⟩ := h
    subst h2
    exact ⟨n', hp, rfl⟩
  | case2 hd tl v0 a s => intro r1 t' h; simp [deleteImpl] at h
  | case3 hd m a s c hm =>
    intro r1 t' h hnd p n' hp
    rw [deleteImpl_last, hm] at h
    simp only [Except.ok.injEq, Prod.mk.injEq] at h
    obtain ⟨-, h2⟩ := h
    subst h2
    exact ⟨n', hp, rfl⟩
  | case4 hd m a s c entry hm =>
    intro r1 t' h hnd p n' hp
    rw [deleteImpl_last, hm] at h
    simp only [Except.ok.injEq, Prod.mk.injEq] at h
    obtain ⟨-, h2⟩ := h
    subst h2
    cases p with
    | nil =>
      simp only [nodeAtQ_nil, Option.some.injEq] at hp
      subst hp
      exact ⟨.branch m a s c, by simp, by simp⟩
    | cons p0 q =>
      by_cases hp0 : p0 = hd
      · rw [hp0] at hp
        have hdel : mapGet (mapDelete m hd) hd = none :=
          mapGet_delete_self m hd (by simpa [nodupN] using hnd)
        simp [nodeAtQ, hdel] at hp
      · simp only [nodeAtQ, mapGet_delete_ne m hd p0 hp0] at hp
        exact ⟨n', by simpa [nodeAtQ] using hp, rfl⟩
  | case5 hd m a s c hd2 tl2 hm =>
    intro r1 t' h hnd p n' hp
    rw [deleteImpl_step_none m a s c hd (hd2 :: tl2) (by simp) hm] at h
    simp only [Except.ok.injEq, Prod.mk.injEq] at h
    obtain ⟨-, h2⟩ := h
    subst h2
    exact ⟨n', hp, rfl⟩
  | case6 hd m a s c hd2 tl2 child hm child' hres ih =>
    intro r1 t' h
    rw [deleteImpl_step_some m a s c hd (hd2 :: tl2) child (by simp) hm] at h
    simp [hres] at h
  | case7 hd m a s c hd2 tl2 child hm child' hres ih =>
    intro r1 t' h hnd p n' hp
    rw [deleteImpl_step_some m a s c hd (hd2 :: tl2) child (by simp) hm] at h
    simp only [hres, Except.ok.injEq, Prod.mk.injEq] at h
    obtain ⟨-, h2⟩ := h
    have hcc := deleteImpl_none_eq child (hd2 :: tl2) child' hres
    rw [hcc, mapSet_self_id m hd child hm] at h2
    subst h2
    exact ⟨n', hp, rfl⟩
  | case8 hd m a s c hd2 tl2 child hm d1 child' hres ih =>
    intro r1 t' h hnd p n' hp
    rw [deleteImpl_step_some m a s c hd (hd2 :: tl2) child (by simp) hm] at h
    simp only [hres, Except.ok.injEq, Prod.mk.injEq] at h
    obtain ⟨-, h2⟩ := h
    subst h2
    cases p with
    | nil =>
      simp only [nodeAtQ_nil, Option.some.injEq] at hp
      subst hp
      exact ⟨.branch m a s c, by simp, by simp⟩
    | cons p0 q =>
      by_cases hp0 : p0 = hd
      · rw [hp0] at hp ⊢
        simp only [nodeAtQ, mapGet_set_self] at hp
        have hndc : nodupN child = true :=
          nodupL_get m hd child (by simpa [nodupN] using hnd) hm
        obtain ⟨n, hn, ha⟩ := ih (some d1) child' hres hndc q n' hp
        exact ⟨n, by simpa [nodeAtQ, hm] using hn, ha⟩
      · simp only [nodeAtQ, mapGet_set_ne m hd _ p0 hp0] at hp
        exact ⟨n', by simpa [nodeAtQ] using hp, rfl⟩

end PathLemmas

section PruneLemmas

variable {κ V : Type} [DecidableEq κ]

open Node MemCache

/-- Total size of a list of prunable units. -/
def sumUnits : List (PruneUnit κ) → Int
  | [] => 0
  | u :: us => u.size + sumUnits us

@[simp] theorem sumUnits_nil : sumUnits ([] : List (PruneUnit κ)) = 0 := rfl

@[simp] theorem sumUnits_cons (u : PruneUnit κ) (us : List (PruneUnit κ)) :
    sumUnits (u :: us) = u.size + sumUnits us := rfl

theorem sumUnits_append (a b : List (PruneUnit κ)) :
    sumUnits (a ++ b) = sumUnits a + sumUnits b := by
  induction a with
  | nil => simp
  | cons u us ih => simp [ih]; ring

theorem sumUnits_eq_map_sum (l : List (PruneUnit κ)) :
    sumUnits l = (l.map PruneUnit.size).sum := by
  induction l with
  | nil => simp
  | cons u us ih => simp [ih]

theorem sumUnits_perm (a b : List (PruneUnit κ)) (h : a.Perm b) :
    sumUnits a = sumUnits b := by
  rw [sumUnits_eq_map_sum, sumUnits_eq_map_sum]
  exact (h.map PruneUnit.size).sum_eq

theorem insertSorted_perm (u : PruneUnit κ) (l : List (PruneUnit κ)) :
    (insertSorted u l).Perm (u :: l) := by
  induction l with
  | nil => simp [insertSorted]
  | cons v vs ih =>
    by_cases hlt : v.atime < u.atime
    · simp only [insertSorted, if_pos hlt]
      exact (ih.cons v).trans (List.Perm.swap u v vs)
    · simp [insertSorted, if_neg hlt]

theorem sortByAtime_perm (l : List (PruneUnit κ)) : (sortByAtime l).Perm l := by
  induction l with
  | nil => simp [sortByAtime]
  | cons u us ih =>
    simp only [sortByAtime]
    exact (insertSorted_perm u (sortByAtime us)).trans (ih.cons u)

theorem insertSorted_sorted (u : PruneUnit κ) (l : List (PruneUnit κ))
    (h : l.Pairwise (fun a b => a.atime ≤ b.atime)) :
    (insertSorted u l).Pairwise (fun a b => a.atime ≤ b.atime) := by
  induction l with
  | nil => simp [insertSorted]
  | cons v vs ih =>
    rw [List.pairwise_cons] at h
    by_cases hlt : v.atime < u.atime
    · simp only [insertSorted, if_pos hlt]
      rw [List.pairwise_cons]
      refine ⟨?_, ih h.2⟩
      intro w hw
      rcases List.mem_cons.mp ((insertSorted_perm u vs).mem_iff.mp hw) with hw | hw
      · rw [hw]; exact Nat.le_of_lt hlt
      · exact h.1 w hw
    · simp only [insertSorted, if_neg hlt]
      rw [List.pairwise_cons]
      refine ⟨?_, List.pairwise_cons.mpr h⟩
      intro w hw
      rcases List.mem_cons.mp hw with hw | hw
      · rw [hw]; exact Nat.le_of_not_lt hlt
      · exact Nat.le_trans (Nat.le_of_not_lt hlt) (h.1 w hw)

theorem sortByAtime_sorted (l : List (PruneUnit κ)) :
    (sortByAtime l).Pairwise (fun a b => a.atime ≤ b.atime) := by
  induction l with
  | nil => simp [sortByAtime]
  | cons u us ih => exact insertSorted_sorted u (sortByAtime us) ih

theorem insertSorted_filter_pos (u : PruneUnit κ) (l : List (PruneUnit κ))
    (ts : Nat) (hu : u.atime = ts) :
    (insertSorted u l).filter (fun x => x.atime == ts) =
      u :: l.filter (fun x => x.atime == ts) := by
  have hut : (u.atime == ts) = true := beq_iff_eq.mpr hu
  induction l with
  | nil => simp [insertSorted, List.filter, hut]
  | cons v vs ih =>
    by_cases hlt : v.atime < u.atime
    · have hv : (v.atime == ts) = false := by
        rw [← hu]
        exact beq_eq_false_iff_ne.mpr (Nat.ne_of_lt hlt)
      simp only [insertSorted, if_pos hlt, List.filter, hv, ih]
    · simp only [insertSorted, if_neg hlt, List.filter, hut]

theorem insertSorted_filter_neg (u : PruneUnit κ) (l : List (PruneUnit κ))
    (ts : Nat) (hu : u.atime ≠ ts) :
    (insertSorted u l).filter (fun x => x.atime == ts) =
      l.filter (fun x => x.atime == ts) := by
  have hut : (u.atime == ts) = false := beq_eq_false_iff_ne.mpr hu
  induction l with
  | nil => simp [insertSorted, List.filter, hut]
  | cons v vs ih =>
    by_cases hlt : v.atime < u.atime
    · simp only [insertSorted, if_pos hlt, List.filter, ih]
    · simp only [insertSorted, if_neg hlt, List.filter, hut]

/-- Stability of the sort: within every class of equal access times the
original (traversal) order is preserved. -/
theorem sortByAtime_filter (l : List (PruneUnit κ)) (ts : Nat) :
    (sortByAtime l).filter (fun x => x.atime == ts) =
      l.filter (fun x => x.atime == ts) := by
  induction l with
  | nil => simp [sortByAtime]
  | cons u us ih =>
    simp only [sortByAtime]
    by_cases hu : u.atime = ts
    · rw [insertSorted_filter_pos u (sortByAtime us) ts hu, ih]
      simp [List.filter, beq_iff_eq.mpr hu]
    · rw [insertSorted_filter_neg u (sortByAtime us) ts hu, ih]
      simp [List.filter, beq_eq_false_iff_ne.mpr hu]

theorem isPre_append_cancel (a b c : List κ) :
    isPre (a ++ b) (a ++ c) = isPre b c := by
  induction a with
  | nil => rfl
  | cons x xs ih => simp [isPre_cons_cons, ih]

theorem isPre_head_ne (k0 k1 : κ) (s s' : List κ) (h : k0 ≠ k1) :
    isPre (k0 :: s) (k1 :: s') = false := by
  simp [isPre_cons_cons, h]

/-- Two prunable units are incomparable: neither key path is a prefix of the
other, so deleting one cannot disturb the node of the other. -/
def incomp (u v : PruneUnit κ) : Prop :=
  isPre u.key v.key = false ∧ isPre v.key u.key = false

theorem incomp_symmetric : Symmetric (incomp (κ := κ)) :=
  fun _ _ h => ⟨h.2, h.1⟩

/-- Units flattened from a child map have keys of the form `pfx ++ k :: suf`
where `k` is a key present in the map. -/
theorem flattenL_shape (pd : Option Nat) (m : List (κ × Node κ V))
    (hrec : ∀ kn ∈ m, ∀ pfx, ∀ u ∈ flatten pd kn.2 pfx,
      ∃ suf, u.key = pfx ++ suf) :
    ∀ pfx, ∀ u ∈ flattenL pd m pfx,
      ∃ k suf, u.key = pfx ++ k :: suf ∧ (mapGet m k).isSome = true := by
  induction m with
  | nil => intro pfx u hu; simp [flattenL] at hu
  | cons kn rest ih =>
    obtain ⟨k0, n0⟩ := kn
    intro pfx u hu
    simp only [flattenL, List.mem_append] at hu
    rcases hu with hu | hu
    · obtain ⟨suf, hsuf⟩ := hrec (k0, n0) (List.mem_cons_self _ _) (pfx ++ [k0]) u hu
      refine ⟨k0, suf, ?_, by simp [mapGet]⟩
      rw [hsuf, List.append_assoc]
      rfl
    · obtain ⟨k, suf, hk, hsome⟩ :=
        ih (fun kn h => hrec kn (List.mem_cons_of_mem _ h)) pfx u hu
      refine ⟨k, suf, hk, ?_⟩
      by_cases hkk : k0 = k
      · simp [mapGet, hkk]
      · simpa [mapGet, hkk] using hsome

/-- Every prunable unit flattened below a prefix has a key extending it. -/
theorem flatten_shape (pd : Option Nat) (t : Node κ V) :
    ∀ pfx, ∀ u ∈ flatten pd t pfx, ∃ suf, u.key = pfx ++ suf := by
  induction t using node_ind with
  | hl v a s =>
    intro pfx u hu
    simp only [flatten, List.mem_singleton] at hu
    exact ⟨[], by simp [hu]⟩
  | hb m a s c ih =>
    intro pfx u hu
    simp only [flatten] at hu
    split at hu
    · simp only [List.mem_singleton] at hu
      exact ⟨[], by simp [hu]⟩
    · obtain ⟨k, suf, hk, -⟩ := flattenL_shape pd m ih pfx u hu
      exact ⟨k :: suf, hk⟩

/-- In a duplicate-free child map, every flattened unit records the access
time and size slot of an actual node, reachable from the owning child. -/
theorem flattenL_present (pd : Option Nat) (m : List (κ × Node κ V))
    (hrec : ∀ kn ∈ m, ∀ pfx, nodupN kn.2 = true → ∀ u ∈ flatten pd kn.2 pfx,
      ∃ suf n, u.key = pfx ++ suf ∧ nodeAtQ kn.2 suf = some n ∧
        n.atimeN = u.atime ∧ n.sizeN = u.size) :
    ∀ pfx, nodupL m = true → ∀ u ∈ flattenL pd m pfx,
      ∃ k suf c n, u.key = pfx ++ k :: suf ∧ mapGet m k = some c ∧
        nodeAtQ c suf = some n ∧ n.atimeN = u.atime ∧ n.sizeN = u.size := by
  induction m with
  | nil => intro pfx hnd u hu; simp [flattenL] at hu
  | cons kn rest ih =>
    obtain ⟨k0, n0⟩ := kn
    intro pfx hnd u hu
    simp only [nodupL, Bool.and_eq_true, Bool.not_eq_true'] at hnd
    obtain ⟨⟨hfresh, hnd0⟩, hndr⟩ := hnd
    simp only [flattenL, List.mem_append] at hu
    rcases hu with hu | hu
    · obtain ⟨suf, n, hk, hq, ha, hs⟩ :=
        hrec (k0, n0) (List.mem_cons_self _ _) (pfx ++ [k0]) hnd0 u hu
      refine ⟨k0, suf, n0, n, ?_, by simp [mapGet], hq, ha, hs⟩
      rw [hk, List.append_assoc]
      rfl
    · obtain ⟨k, suf, c, n, hk, hget, hq, ha, hs⟩ :=
        ih (fun kn h => hrec kn (List.mem_cons_of_mem _ h)) pfx hndr u hu
      have hkk : k0 ≠ k := by
        intro he
        rw [he, hget] at hfresh
        simp at hfresh
      exact ⟨k, suf, c, n, hk, by simp [mapGet, hkk, hget], hq, ha, hs⟩

/-- Members of a well-formed tree: flattening records real nodes. -/
theorem flatten_present (pd : Option Nat) (t : Node κ V) :
    ∀ pfx, nodupN t = true → ∀ u ∈ flatten pd t pfx,
      ∃ suf n, u.key = pfx ++ suf ∧ nodeAtQ t suf = some n ∧
        n.atimeN = u.atime ∧ n.sizeN = u.size := by
  induction t using node_ind with
  | hl v a s =>
    intro pfx hnd u hu
    simp only [flatten, List.mem_singleton] at hu
    subst hu
    exact ⟨[], .leaf v a s, by simp, nodeAtQ_nil _, rfl, rfl⟩
  | hb m a s c ih =>
    intro pfx hnd u hu
    simp only [flatten] at hu
    split at hu
    · simp only [List.mem_singleton] at hu
      subst hu
      exact ⟨[], .branch m a s c, by simp, nodeAtQ_nil _, rfl, rfl⟩
    · obtain ⟨k, suf, ch, n, hk, hget, hq, ha, hs⟩ :=
        flattenL_present pd m ih pfx (by simpa [nodupN] using hnd) u hu
      exact ⟨k :: suf, n, hk, by simp [nodeAtQ, hget, hq], ha, hs⟩

/-- Units flattened from a duplicate-free child map are pairwise
incomparable: the flattening stops descending at each unit, and distinct
children have distinct head keys. -/
theorem flattenL_pairwise (pd : Option Nat) (m : List (κ × Node κ V))
    (hrec : ∀ kn ∈ m, ∀ pfx, nodupN kn.2 = true →
      (flatten pd kn.2 pfx).Pairwise incomp) :
    ∀ pfx, nodupL m = true → (flattenL pd m pfx).Pairwise incomp := by
  induction m with
  | nil => intro pfx hnd; simp [flattenL]
  | cons kn rest ih =>
    obtain ⟨k0, n0⟩ := kn
    intro pfx hnd
    simp only [nodupL, Bool.and_eq_true, Bool.not_eq_true'] at hnd
    obtain ⟨⟨hfresh, hnd0⟩, hndr⟩ := hnd
    simp only [flattenL]
    rw [List.pairwise_append]
    refine ⟨hrec (k0, n0) (List.mem_cons_self _ _) (pfx ++ [k0]) hnd0,
      ih (fun kn h => hrec kn (List.mem_cons_of_mem _ h)) pfx hndr, ?_⟩
    intro u hu v hv
    obtain ⟨suf, hsuf⟩ := flatten_shape pd n0 (pfx ++ [k0]) u hu
    obtain ⟨k, suf2, hk, hsome⟩ := flattenL_shape pd rest
      (fun kn _ pfx2 => flatten_shape pd kn.2 pfx2) pfx v hv
    have hkk : k0 ≠ k := by
      intro he
      rw [← he] at hsome
      simp [hfresh] at hsome
    have hu2 : u.key = pfx ++ k0 :: suf := by
      rw [hsuf, List.append_assoc]
      rfl
    refine ⟨?_, ?_⟩
    · rw [hu2, hk, isPre_append_cancel]
      exact isPre_head_ne k0 k suf suf2 hkk
    · rw [hu2, hk, isPre_append_cancel]
      exact isPre_head_ne k k0 suf2 suf (Ne.symm hkk)

/-- The prunable units of a well-formed tree are pairwise incomparable. -/
theorem flatten_pairwise (pd : Option Nat) (t : Node κ V) :
    ∀ pfx, nodupN t = true → (flatten pd t pfx).Pairwise incomp := by
  induction t using node_ind with
  | hl v a s => intro pfx hnd; simp [flatten]
  | hb m a s c ih =>
    intro pfx hnd
    simp only [flatten]
    split
    · simp
    · exact flattenL_pairwise pd m ih pfx (by simpa [nodupN] using hnd)

/-- Under the size invariant, the flattened units of a child map sum to the
sum of its entries' size slots. -/
theorem flattenL_sum (pd : Option Nat) (m : List (κ × Node κ V))
    (hrec : ∀ kn ∈ m, ∀ pfx, sizeOkB kn.2 = true →
      sumUnits (flatten pd kn.2 pfx) = kn.2.sizeN) :
    ∀ pfx, sizeOkL m = true → sumUnits (flattenL pd m pfx) = sumSizes m := by
  induction m with
  | nil => intro pfx h; simp [flattenL, sumSizes]
  | cons kn rest ih =>
    obtain ⟨k0, n0⟩ := kn
    intro pfx h
    simp only [sizeOkL, Bool.and_eq_true] at h
    simp only [flattenL, sumSizes, sumUnits_append]
    rw [hrec (k0, n0) (List.mem_cons_self _ _) (pfx ++ [k0]) h.1,
      ih (fun kn hm => hrec kn (List.mem_cons_of_mem _ hm)) pfx h.2]

/-- Under the size invariant, the flattened units sum to the aggregate size:
the prunable units partition the tree's weight. -/
theorem flatten_sum (pd : Option Nat) (t : Node κ V) :
    ∀ pfx, sizeOkB t = true → sumUnits (flatten pd t pfx) = t.sizeN := by
  induction t using node_ind with
  | hl v a s => intro pfx h; simp [flatten]
  | hb m a s c ih =>
    intro pfx h
    simp only [sizeOkB, Bool.and_eq_true, decide_eq_true_eq] at h
    simp only [flatten]
    split
    · simp
    · rw [flattenL_sum pd m ih pfx h.2, sizeN_branch, h.1]

/-- A node reachable by a nonempty key path is found and removed by
`deleteImpl`, which returns it. -/
theorem deleteImpl_present (t : Node κ V) (k : List κ) :
    ∀ d, nodeAtQ t k = some d → k ≠ [] →
      ∃ t', deleteImpl t k = .ok (some d, t') := by
  induction t, k using deleteImpl.induct with
  | case1 node => intro d hq hk; exact absurd rfl hk
  | case2 hd tl v0 a s => intro d hq hk; simp [nodeAtQ] at hq
  | case3 hd m a s c hm =>
    intro d hq hk
    simp [nodeAtQ, hm] at hq
  | case4 hd m a s c entry hm =>
    intro d hq hk
    simp only [nodeAtQ, hm, nodeAtQ_nil, Option.some.injEq] at hq
    subst hq
    exact ⟨_, by rw [deleteImpl_last, hm]⟩
  | case5 hd m a s c hd2 tl2 hm =>
    intro d hq hk
    simp [nodeAtQ, hm] at hq
  | case6 hd m a s c hd2 tl2 child hm child' hres ih =>
    intro d hq hk
    simp only [nodeAtQ, hm] at hq
    obtain ⟨c2, hc2⟩ := ih d hq (by simp)
    rw [hres] at hc2
    simp at hc2
  | case7 hd m a s c hd2 tl2 child hm child' hres ih =>
    intro d hq hk
    simp only [nodeAtQ, hm] at hq
    obtain ⟨c2, hc2⟩ := ih d hq (by simp)
    rw [hres] at hc2
    simp at hc2
  | case8 hd m a s c hd2 tl2 child hm d1 child' hres ih =>
    intro d hq hk
    simp only [nodeAtQ, hm] at hq
    obtain ⟨c2, hc2⟩ := ih d hq (by simp)
    rw [hres] at hc2
    simp only [Except.ok.injEq, Prod.mk.injEq, Option.some.injEq] at hc2
    obtain ⟨hd1, -⟩ := hc2
    subst hd1
    exact ⟨_, by
      rw [deleteImpl_step_some m a s c hd (hd2 :: tl2) child (by simp) hm, hres]⟩

/-- Deleting one key path leaves the node at any incomparable key path (and
its whole subtree) untouched. -/
theorem deleteImpl_frame (t : Node κ V) (k : List κ) :
    ∀ r t', deleteImpl t k = .ok (r, t') →
      ∀ p, isPre k p = false → isPre p k = false →
        nodeAtQ t' p = nodeAtQ t p := by
  induction t, k using deleteImpl.induct with
  | case1 node =>
    intro r t' h p hkp hpk
    simp [isPre] at hkp
  | case2 hd tl v0 a s => intro r t' h; simp [deleteImpl] at h
  | case3 hd m a s c hm =>
    intro r t' h p hkp hpk
    rw [deleteImpl_last, hm] at h
    simp only [Except.ok.injEq, Prod.mk.injEq] at h
    rw [← h.2]
  | case4 hd m a s c entry hm =>
    intro r t' h p hkp hpk
    rw [deleteImpl_last, hm] at h
    simp only [Except.ok.injEq, Prod.mk.injEq] at h
    rw [← h.2]
    cases p with
    | nil => simp [isPre] at hpk
    | cons p0 q =>
      have hp0 : p0 ≠ hd := by
        intro he
        subst he
        simp [isPre_cons_cons, isPre] at hkp
      simp only [nodeAtQ, mapGet_delete_ne m hd p0 hp0]
  | case5 hd m a s c hd2 tl2 hm =>
    intro r t' h p hkp hpk
    rw [deleteImpl_step_none m a s c hd (hd2 :: tl2) (by simp) hm] at h
    simp only [Except.ok.injEq, Prod.mk.injEq] at h
    rw [← h.2]
  | case6 hd m a s c hd2 tl2 child hm child' hres ih =>
    intro r t' h p hkp hpk
    rw [deleteImpl_step_some m a s c hd (hd2 :: tl2) child (by simp) hm] at h
    simp [hres] at h
  | case7 hd m a s c hd2 tl2 child hm child' hres ih =>
    intro r t' h p hkp hpk
    rw [deleteImpl_step_some m a s c hd (hd2 :: tl2) child (by simp) hm] at h
    simp only [hres, Except.ok.injEq, Prod.mk.injEq] at h
    have hce : child' = child := deleteImpl_none_eq child (hd2 :: tl2) child' hres
    rw [← h.2, hce, mapSet_self_id m hd child hm]
  | case8 hd m a s c hd2 tl2 child hm d1 child' hres ih =>
    intro r t' h p hkp hpk
    rw [deleteImpl_step_some m a s c hd (hd2 :: tl2) child (by simp) hm] at h
    simp only [hres, Except.ok.injEq, Prod.mk.injEq] at h
    rw [← h.2]
    cases p with
    | nil => simp [isPre] at hpk
    | cons p0 q =>
      by_cases hp0 : p0 = hd
      · subst hp0
        have hq1 : isPre (hd2 :: tl2) q = false := by
          simpa [isPre_cons_cons] using hkp
        have hq2 : isPre q (hd2 :: tl2) = false := by
          simpa [isPre_cons_cons] using hpk
        simp only [nodeAtQ, mapGet_set_self, hm]
        exact ih (some d1) child' hres q hq1 hq2
      · simp only [nodeAtQ, mapGet_set_ne m hd _ p0 hp0]

/-- Master specification of the eviction loop: with pairwise-incomparable,
present, nonempty-key units whose total weight would bring the size within
capacity, the loop returns normally, evicts exactly a prefix of the unit
list, stops as soon as the size is within capacity, and every evicted unit
was needed: before it the size still exceeded capacity. -/
theorem pruneLoop_spec (cap : Int) :
    ∀ (us : List (PruneUnit κ)) (t : Node κ V),
      (∀ u ∈ us, u.key ≠ []) →
      (∀ u ∈ us, ∃ n, nodeAtQ t u.key = some n ∧ n.sizeN = u.size) →
      us.Pairwise incomp →
      t.sizeN - sumUnits us ≤ cap →
      ∃ j t', pruneLoop cap us t = .ok (us.take j, t') ∧
        t'.sizeN = t.sizeN - sumUnits (us.take j) ∧
        t'.sizeN ≤ cap ∧
        ∀ i, i < j → cap < t.sizeN - sumUnits (us.take i) := by
  intro us
  induction us with
  | nil =>
    intro t hne hpres hpw hcov
    refine ⟨0, t, rfl, by simp, ?_, fun i hi => absurd hi (by omega)⟩
    simpa using hcov
  | cons u us ih =>
    intro t hne hpres hpw hcov
    by_cases hle : t.sizeN ≤ cap
    · refine ⟨0, t, ?_, by simp, hle, fun i hi => absurd hi (by omega)⟩
      simp [pruneLoop, hle]
    · obtain ⟨n, hq, hsz⟩ := hpres u (List.mem_cons_self _ _)
      obtain ⟨t1, ht1⟩ :=
        deleteImpl_present t u.key n hq (hne u (List.mem_cons_self _ _))
      have hdelta : t1.sizeN = t.sizeN - u.size := by
        rw [deleteImpl_delta t u.key n t1 ht1, hsz]
      have hpw2 := List.pairwise_cons.mp hpw
      have hpres1 : ∀ v ∈ us,
          ∃ n2, nodeAtQ t1 v.key = some n2 ∧ n2.sizeN = v.size := by
        intro v hv
        obtain ⟨n2, hq2, hs2⟩ := hpres v (List.mem_cons_of_mem _ hv)
        have hinc := hpw2.1 v hv
        refine ⟨n2, ?_, hs2⟩
        rw [deleteImpl_frame t u.key (some n) t1 ht1 v.key hinc.1 hinc.2]
        exact hq2
      have hcov1 : t1.sizeN - sumUnits us ≤ cap := by
        rw [hdelta]
        simp only [sumUnits_cons] at hcov
        omega
      obtain ⟨j, t2, hloop, hsz2, hle2, hmin⟩ :=
        ih t1 (fun v hv => hne v (List.mem_cons_of_mem _ hv)) hpres1 hpw2.2 hcov1
      refine ⟨j + 1, t2, ?_, ?_, hle2, ?_⟩
      · simp only [pruneLoop, if_neg hle, ht1, hloop, List.take_succ_cons]
      · rw [hsz2, hdelta]
        simp only [List.take_succ_cons, sumUnits_cons]
        omega
      · intro i hi
        cases i with
        | zero =>
          simp only [List.take_zero, sumUnits_nil]
          omega
        | succ i2 =>
          have := hmin i2 (by omega)
          rw [hdelta] at this
          simp only [List.take_succ_cons, sumUnits_cons]
          omega

end PruneLemmas

section ConcreteExamples

/-! Concrete instantiation at `κ = Nat`, `V = Nat` with the identity size
estimator (matching the test suite's `object-sizeof` mock, where a mocked
number's byte size is its value).  These states exercise the code paths the
claims talk about; the claim theorems below evaluate the engine on them. -/

open Node MemCache

/-- Identity size estimator on `Nat` values. -/
def estN : Nat → Nat := fun v => v

/-- A cache built with all-default options (no capacity) at time `0`. -/
def cNil : Cache Nat Nat := mkCache estN {} 0

/-- Leaves `[1,2] ↦ 10` and `[1,3] ↦ 11` inserted, then the branch at `[1]`
overwritten by the leaf `12`: the overwrite drops two leaves for one but adds
nothing to (and subtracts nothing from) the count slots on the path. -/
def c2after : Cache Nat Nat :=
  afterE (MemCache.insertOne estN
    (afterE (MemCache.insertOne estN
      (afterE (MemCache.insertOne estN cNil [1, 2] 10 true 1))
      [1, 3] 11 true 2))
    [1] 12 true 3)

/-- One leaf inserted and then `clear()` called: the source resets the child
map and the size slot but not the count slot. -/
def c6after : Cache Nat Nat :=
  MemCache.clear (afterE (MemCache.insertOne estN cNil [1] 10 true 1))

/-- The spec's example configuration: capacity `100`, `pruneDepth = 1`,
auto-pruning off so the example's five inserts all land. -/
def c5base : Cache Nat Nat :=
  mkCache estN { capacity := some 100, autoPrune := false, pruneDepth := some 1 } 0

/-- The spec's example inserts: `(1,1)=30` at `t0=0`, `(2,1)=30` at `t1=1`,
`(2,2)=30` at `t2=2`, `(1,2)=30` at `t3=3`, `(1,3)=30` at `t4=4`. -/
def c5 : Cache Nat Nat :=
  afterE (MemCache.insertOne estN (afterE (MemCache.insertOne estN
    (afterE (MemCache.insertOne estN (afterE (MemCache.insertOne estN
      (afterE (MemCache.insertOne estN c5base [1, 1] 30 true 0))
      [2, 1] 30 true 1)) [2, 2] 30 true 2)) [1, 2] 30 true 3)) [1, 3] 30 true 4)

/-- Capacity `10` with immediate auto-pruning (no debounce interval). -/
def c3base : Cache Nat Nat := mkCache estN { capacity := some 10 } 0

/-- Capacity `10`, `pruneDepth = 0`, one over-capacity leaf `[1] ↦ 20`
(auto-pruning off so the insert lands): the only prunable unit is the root
itself, whose empty-path deletion removes nothing. -/
def c4zero : Cache Nat Nat :=
  afterE (MemCache.insertOne estN (mkCache estN
    { capacity := some 10, autoPrune := false, pruneDepth := some 0 } 0) [1] 20 true 0)

/-- Capacity `10` with a `100`-tick auto-prune debounce interval. -/
def c7base : Cache Nat Nat :=
  mkCache estN { capacity := some 10, autoPruneInterval := some 100 } 0

/-- `c7base` after inserting the over-capacity leaf `[1] ↦ 20` at time `0`:
the debounce interval suppresses the auto-prune, so the leaf survives with
the cache over capacity and a prune pending. -/
def c7mid : Cache Nat Nat := afterE (MemCache.insertOne estN c7base [1] 20 true 0)

/-- Two sibling leaves `[1] ↦ 10` (inserted at `0`) and `[2] ↦ 5` (at `1`);
the root's access time is `1`. -/
def c8mid : Cache Nat Nat :=
  afterE (MemCache.insertOne estN
    (afterE (MemCache.insertOne estN cNil [1] 10 true 0)) [2] 5 true 1)

/-- A cache holding the single leaf `[1,2] ↦ 10`, inserted at time `1`. -/
def c9 : Cache Nat Nat := afterE (MemCache.insertOne estN cNil [1, 2] 10 true 1)

/-- The subtree of `c9` at `[1]`: the branch a partial view at `[1]` retains. -/
def c9sub : Node Nat Nat := .branch [(2, .leaf 10 1 10)] 1 10 1

/-- A no-capacity cache holding the single leaf `[1] ↦ 10` inserted at `0`. -/
def c7leaf : Cache Nat Nat := afterE (MemCache.insertOne estN cNil [1] 10 true 0)

/-- A hand-built well-formed two-leaf cache: capacity `25`, size `30`, the
leaf at `[2]` (size `20`) least recently touched. -/
def c4w : Cache Nat Nat :=
  { root := .branch [(1, .leaf 10 5 10), (2, .leaf 20 1 20)] 5 30 2
    capacity := some 25
    lastPruneAt := 0
    autoPrune := false
    autoPruneInterval := none
    pruneDepth := none }

end ConcreteExamples

section Claims

variable {κ V : Type} [DecidableEq κ]

open Node MemCache

/-- C1: for every Branch node in the trie, after any sequence of public
operations (insertOne, insertMany, ensure, deleteOne, deleteMany, clear,
prune) starting from a freshly constructed cache, the Branch's aggregate size
equals the sum of its children's sizes (a Leaf contributing its stored size, a
Branch its aggregate size), and no aggregate size is negative. -/
theorem C1_aggregate_size_invariant (est : V → Nat) (opts : MemCacheOptions κ V)
    (t0 : Nat) (ops : List (Op κ V)) :
    sizeOkB (applyOps est (mkCache est opts t0) ops).root = true ∧
    nonnegB (applyOps est (mkCache est opts t0) ops).root = true := by
  have h := applyOps_sizeOk est ops (mkCache est opts t0) (mkCache_sizeOk est opts t0)
  exact ⟨h, sizeOk_nonneg _ h⟩

/-- C3 (amended): provided no auto-prune can fire (no capacity is set) and
the operations return normally, the round-trip laws hold: `insertOne(k, v)`
(nonempty `k`, replace semantics) followed by `get(k)` returns `v`, and
`deleteOne(k)` followed by `get(k)` returns absent (assuming the JS-`Map`
key-uniqueness well-formedness of the tree and a Branch root). -/
theorem C3_round_trip_amended (est : V → Nat) (c : Cache κ V)
    (hcap : c.capacity = none) :
    (∀ (k : List κ) (v : V) (now now' : Nat) (touch : Bool) (szr : Option Int)
        (c' : Cache κ V),
        k ≠ [] → MemCache.insertOne est c k v true now = .ok (szr, c') →
        ∃ c'', MemCache.get c' k touch now' = .ok (some v, c'')) ∧
    (∀ (k : List κ) (now' : Nat) (touch : Bool) (c' : Cache κ V),
        nodupN c.root = true → c.root.isBranchN = true →
        MemCache.deleteOne c k = .ok c' →
        ∃ c'', MemCache.get c' k touch now' = .ok (none, c'')) := by
  constructor
  · intro k v now now' touch szr c' hk hins
    cases hres : insertImpl est c.root k v now true with
    | error t =>
      rw [MemCache.insertOne, hres] at hins
      simp [MemCache.shouldAutoPrune, hcap] at hins
    | ok res =>
      obtain ⟨sz, diff, ins, t'⟩ := res
      rw [MemCache.insertOne, hres] at hins
      simp only [MemCache.shouldAutoPrune, hcap] at hins
      rw [if_neg (by simp)] at hins
      simp only [Except.ok.injEq, Prod.mk.injEq] at hins
      obtain ⟨-, hc'⟩ := hins
      have hst := insertImpl_stores est c.root k v now true sz diff ins t' hres rfl hk
      obtain ⟨tg, hg⟩ := getImpl_found k t' v now (est v : Int) touch now' hst
      refine ⟨{ c with root := tg }, ?_⟩
      rw [← hc']
      simp [MemCache.get, hg, hcap]
  · intro k now' touch c' hnd hbr hdel
    cases hres : deleteImpl c.root k with
    | error t =>
      rw [MemCache.deleteOne, hres] at hdel
      cases hdel
    | ok res =>
      obtain ⟨r1, t'⟩ := res
      rw [MemCache.deleteOne, hres] at hdel
      simp only [Except.ok.injEq] at hdel
      have hgr := deleteImpl_then_get c.root k r1 t' hres hnd hbr touch now'
      cases hg2 : getImpl t' k touch now' with
      | error tc => simp [getRes, hg2] at hgr
      | ok res2 =>
        obtain ⟨rc, tc⟩ := res2
        cases rc with
        | none =>
          refine ⟨{ c with root := tc }, ?_⟩
          rw [← hdel]
          simp [MemCache.get, hg2]
        | some n =>
          cases n with
          | leaf lv la ls => simp [getRes, hg2] at hgr
          | branch mm aa ss cc =>
            refine ⟨{ c with root := tc }, ?_⟩
            rw [← hdel]
            simp [MemCache.get, hg2]

/-- C7 (amended): provided the deferred auto-prune cannot fire (no capacity
set), `insertOne(k, v, replace := false)` at a key holding a Leaf returns
null and leaves the stored value, its size and every aggregate unchanged
(ancestor access times above the terminal Branch are still refreshed, which
the timestamp-erased comparison factors out). -/
theorem C7_replace_false_noop_amended (est : V → Nat) (c : Cache κ V)
    (hcap : c.capacity = none) (k : List κ) (v lv : V) (la : Nat) (ls : Int)
    (now : Nat) (hleaf : nodeAtQ c.root k = some (.leaf lv la ls)) :
    ∃ c', MemCache.insertOne est c k v false now = .ok (none, c') ∧
      stripA c'.root = stripA c.root := by
  obtain ⟨t', hres, hstrip⟩ := insertImpl_noop est k c.root v lv la ls now hleaf
  refine ⟨{ c with root := t' }, ?_, hstrip⟩
  rw [MemCache.insertOne, hres]
  simp [MemCache.shouldAutoPrune, hcap]

/-- C10 (amended): provided the deferred auto-prune cannot fire (no capacity
set), `insertOne`, `get` and `deleteOne` with a zero-length key are no-ops
returning a null/absent result without an exception: `insertOne` and
`deleteOne` leave the cache exactly as it was, and `get` changes nothing but
the root access time. -/
theorem C10_empty_key_amended (est : V → Nat) (c : Cache κ V)
    (hcap : c.capacity = none) (hbr : c.root.isBranchN = true) :
    (∀ (v : V) (r : Bool) (now : Nat),
        MemCache.insertOne est c [] v r now = .ok (none, c)) ∧
    (∀ (touch : Bool) (now : Nat),
        ∃ c', MemCache.get c [] touch now = .ok (none, c') ∧
          stripA c'.root = stripA c.root) ∧
    MemCache.deleteOne c [] = .ok c := by
  refine ⟨?_, ?_, ?_⟩
  · intro v r now
    have hres : insertImpl est c.root [] v now r = .ok (none, 0, false, c.root) := by
      cases hroot : c.root <;> rfl
    rw [MemCache.insertOne, hres]
    simp only [MemCache.shouldAutoPrune, MemCache.size, hcap]
    rw [if_neg (by simp)]
    rw [← hcap]
  · intro touch now
    cases hroot : c.root with
    | leaf v0 a0 s0 => rw [hroot] at hbr; simp [Node.isBranchN] at hbr
    | branch m a0 s0 c0 =>
      cases touch with
      | false =>
        refine ⟨{ c with root := .branch m a0 s0 c0 }, ?_, rfl⟩
        rw [MemCache.get, hroot]
        rfl
      | true =>
        refine ⟨{ c with root := .branch m now s0 c0 }, ?_, ?_⟩
        · rw [MemCache.get, hroot]
          rfl
        · simp [stripA]
  · have hres : deleteImpl c.root [] = .ok (none, c.root) := by
      cases hroot : c.root <;> rfl
    rw [MemCache.deleteOne, hres]

/-- C8 (amended): access-time propagation as the code implements it.  A
touching `get` stamps every node on the existing key path — the terminal node
and all ancestors up to the root — with the current time and leaves all nodes
off the path untouched; an `insertOne` that stores a value (returns a size)
stamps every node on its key path and leaves nodes at incomparable positions
untouched; `deleteOne` stamps nothing: every surviving node keeps its
previous access timestamp; and a no-op `insertOne` (`replace = false` at an
existing leaf) stamps every branch strictly above the terminal branch with
the call date but leaves the terminal branch, the leaf, and every node off
that ancestor path untouched — it stamps neither the full traversed path nor
nothing. -/
theorem C8_access_time_amended (est : V → Nat) :
    (∀ (c : Cache κ V) (k : List κ) (now : Nat) (r : Option V) (c' : Cache κ V),
        MemCache.get c k true now = .ok (r, c') →
        ((∀ p, isPre p k = true → ∀ n, nodeAtQ c.root p = some n →
            ∃ n', nodeAtQ c'.root p = some n' ∧ n'.atimeN = now) ∧
         (∀ p, isPre p k = false → nodeAtQ c'.root p = nodeAtQ c.root p))) ∧
    (∀ (c : Cache κ V) (k : List κ) (v : V) (rp : Bool) (now : Nat) (sz : Int)
        (c' : Cache κ V),
        c.capacity = none →
        MemCache.insertOne est c k v rp now = .ok (some sz, c') →
        ((∀ p, isPre p k = true →
            ∃ n', nodeAtQ c'.root p = some n' ∧ n'.atimeN = now) ∧
         (∀ p, isPre p k = false → isPre k p = false →
            nodeAtQ c'.root p = nodeAtQ c.root p))) ∧
    (∀ (c : Cache κ V) (k : List κ) (c' : Cache κ V),
        nodupN c.root = true → MemCache.deleteOne c k = .ok c' →
        ∀ p n', nodeAtQ c'.root p = some n' →
          ∃ n, nodeAtQ c.root p = some n ∧ n'.atimeN = n.atimeN) ∧
    (∀ (c : Cache κ V) (k : List κ) (v lv : V) (la : Nat) (ls : Int)
        (now : Nat) (c' : Cache κ V),
        c.capacity = none → nodeAtQ c.root k = some (.leaf lv la ls) →
        MemCache.insertOne est c k v false now = .ok (none, c') →
        ((∀ p, isPre p k.dropLast = true → p ≠ k.dropLast →
            ∃ n', nodeAtQ c'.root p = some n' ∧ n'.atimeN = now) ∧
         nodeAtQ c'.root k.dropLast = nodeAtQ c.root k.dropLast ∧
         (∀ p, isPre p k.dropLast = false →
            nodeAtQ c'.root p = nodeAtQ c.root p))) := by
  refine ⟨?_, ?_, ?_, ?_⟩
  · intro c k now r c' hget
    cases hres : getImpl c.root k true now with
    | error t => rw [MemCache.get, hres] at hget; cases hget
    | ok res =>
      obtain ⟨nres, t⟩ := res
      rw [MemCache.get, hres] at hget
      simp only [Except.ok.injEq, Prod.mk.injEq] at hget
      obtain ⟨-, h2⟩ := hget
      have := getImpl_stamps k c.root now nres t hres
      rw [← h2]
      exact this
  · intro c k v rp now sz c' hcap hins
    cases hres : insertImpl est c.root k v now rp with
    | error t =>
      rw [MemCache.insertOne, hres] at hins
      simp [MemCache.shouldAutoPrune, hcap] at hins
    | ok res =>
      obtain ⟨sz0, diff, ins, t'⟩ := res
      rw [MemCache.insertOne, hres] at hins
      simp only [MemCache.shouldAutoPrune, MemCache.size, hcap] at hins
      rw [if_neg (by simp)] at hins
      simp only [Except.ok.injEq, Prod.mk.injEq] at hins
      obtain ⟨h1, h2⟩ := hins
      rw [← h2]
      rw [h1] at hres
      exact insertImpl_atimes est c.root k v now rp sz diff ins t' hres
  · intro c k c' hnd hdel
    cases hres : deleteImpl c.root k with
    | error t => rw [MemCache.deleteOne, hres] at hdel; cases hdel
    | ok res =>
      obtain ⟨r1, t'⟩ := res
      rw [MemCache.deleteOne, hres] at hdel
      simp only [Except.ok.injEq] at hdel
      rw [← hdel]
      exact deleteImpl_atimes c.root k r1 t' hres hnd
  · intro c k v lv la ls now c' hcap hleaf hins
    obtain ⟨t', hres, -⟩ := insertImpl_noop est k c.root v lv la ls now hleaf
    rw [MemCache.insertOne, hres] at hins
    simp only [MemCache.shouldAutoPrune, MemCache.size, hcap] at hins
    rw [if_neg (by simp)] at hins
    simp only [Except.ok.injEq, Prod.mk.injEq] at hins
    obtain ⟨-, h2⟩ := hins
    subst h2
    exact insertImpl_noop_atimes est k c.root v lv la ls now t' hleaf hres

/-- C4 (amended): in every `prune()` call with a capacity set, a positive
shortfall (capacity below the aggregate size), a `pruneDepth` other than `0`,
and a well-formed branch root (size invariant, duplicate-free child maps),
the call returns normally and deletes a *prefix* of the flattened unit list
sorted ascending by access timestamp (least-recently-touched first, ties kept
in traversal order by stability of the sort); each deletion removes exactly
the unit's recorded size via full-path deletion from the root; the loop stops
as soon as the aggregate size is at or below capacity and never over-evicts
(before every evicted unit the size still exceeded capacity); and after the
call the aggregate size is at or below capacity.  The spec's unconditional
claim fails for `pruneDepth = 0`: the sole unit is the root itself, whose
empty-path deletion is a no-op, so the size never shrinks. -/
theorem C4_prune_amended (c : Cache κ V) (now : Nat) (cap : Int)
    (hcap : c.capacity = some cap) (hnncap : 0 ≤ cap) (hover : cap < size c)
    (hpd : c.pruneDepth ≠ some 0) (hok : sizeOkB c.root = true)
    (hnd : nodupN c.root = true) (hbr : c.root.isBranchN = true) :
    ∃ j c2,
      prune c now =
        .ok ((sortByAtime (flatten c.pruneDepth c.root [])).take j, c2) ∧
      (sortByAtime (flatten c.pruneDepth c.root [])).Pairwise
        (fun u v => u.atime ≤ v.atime) ∧
      (∀ ts, (sortByAtime (flatten c.pruneDepth c.root [])).filter
          (fun x => x.atime == ts) =
        (flatten c.pruneDepth c.root []).filter (fun x => x.atime == ts)) ∧
      size c2 = size c -
        sumUnits ((sortByAtime (flatten c.pruneDepth c.root [])).take j) ∧
      size c2 ≤ cap ∧
      (∀ i, i < j → cap <
        size c - sumUnits ((sortByAtime (flatten c.pruneDepth c.root [])).take i)) ∧
      c2.lastPruneAt = now := by
  obtain ⟨m, a, s, cnt, hroot⟩ : ∃ m a s cnt, c.root = .branch m a s cnt := by
    cases hr : c.root with
    | leaf v a s =>
      rw [hr] at hbr
      simp [Node.isBranchN] at hbr
    | branch m a s cnt => exact ⟨m, a, s, cnt, rfl⟩
  have hdr : depthReached c.pruneDepth 0 = false := by
    cases hpdv : c.pruneDepth with
    | none => rfl
    | some dd =>
      cases dd with
      | zero => exact absurd hpdv hpd
      | succ dd2 => simp [depthReached]
  have hfl : flatten c.pruneDepth c.root [] = flattenL c.pruneDepth m [] := by
    rw [hroot]
    simp [flatten, hdr]
  have hndL : nodupL m = true := by
    rw [hroot] at hnd
    simpa [nodupN] using hnd
  have hperm := sortByAtime_perm (flatten c.pruneDepth c.root [])
  have hne : ∀ u ∈ sortByAtime (flatten c.pruneDepth c.root []),
      u.key ≠ [] := by
    intro u hu
    have hu2 : u ∈ flattenL c.pruneDepth m [] := by
      rw [← hfl]
      exact hperm.mem_iff.mp hu
    obtain ⟨k, suf, hk, -⟩ := flattenL_shape c.pruneDepth m
      (fun kn _ pfx => flatten_shape c.pruneDepth kn.2 pfx) [] u hu2
    rw [hk]
    simp
  have hpres : ∀ u ∈ sortByAtime (flatten c.pruneDepth c.root []),
      ∃ n, nodeAtQ c.root u.key = some n ∧ n.sizeN = u.size := by
    intro u hu
    have hu2 : u ∈ flattenL c.pruneDepth m [] := by
      rw [← hfl]
      exact hperm.mem_iff.mp hu
    obtain ⟨k, suf, ch, n, hk, hget, hq, -, hs⟩ := flattenL_present c.pruneDepth m
      (fun kn _ pfx hn => flatten_present c.pruneDepth kn.2 pfx hn) [] hndL u hu2
    refine ⟨n, ?_, hs⟩
    rw [hroot, hk]
    simp [nodeAtQ, hget, hq]
  have hpw : (sortByAtime (flatten c.pruneDepth c.root [])).Pairwise incomp :=
    (hperm.pairwise_iff (fun h => ⟨h.2, h.1⟩)).mpr
      (flatten_pairwise c.pruneDepth c.root [] hnd)
  have hsum : sumUnits (sortByAtime (flatten c.pruneDepth c.root [])) =
      c.root.sizeN := by
    rw [sumUnits_perm _ _ hperm]
    exact flatten_sum c.pruneDepth c.root [] hok
  have hcov : c.root.sizeN -
      sumUnits (sortByAtime (flatten c.pruneDepth c.root [])) ≤ cap := by
    rw [hsum]
    omega
  obtain ⟨j, t2, hloop, hsz2, hle2, hmin⟩ :=
    pruneLoop_spec cap (sortByAtime (flatten c.pruneDepth c.root [])) c.root
      hne hpres hpw hcov
  refine ⟨j, { c with lastPruneAt := now, root := t2 }, ?_,
    sortByAtime_sorted _, fun ts => sortByAtime_filter _ ts,
    hsz2, hle2, hmin, rfl⟩
  have hnotle : ¬ size { c with lastPruneAt := now } ≤ cap := not_le.mpr hover
  simp only [prune, hcap]
  split
  · rename_i hle3
    exact absurd hle3 hnotle
  · rw [hloop]

/-- C2 (code bug): after inserting leaves at `[1,2]` and `[1,3]` and then
overwriting the branch at `[1]` with a leaf, the root's count slot reads `2`
while the tree holds a single leaf: the terminal `insertImpl` arm adds
`inserted ? 1 : 0` but never subtracts the leaf count of a branch it
overwrites, so the count accessor diverges from the number of `Leaf`
descendants. -/
theorem C2_count_bug_eval :
    MemCache.count c2after = 2 ∧ leafCountN c2after.root = 1 :=
  ⟨rfl, rfl⟩

/-- C5: the spec's `pruneDepth = 1` example.  With capacity `100` and the
five example inserts (total size `150`), `prune()` flattens the two top-level
subtrees into units — subtree `2` (last written `t2`, size `60`) and subtree
`1` (last written `t4`, size `90`) — evicts exactly subtree `2` as a whole,
and leaves subtree `1` intact with its three leaves and size `90`. -/
theorem C5_prune_depth1_example :
    ∃ c', MemCache.prune c5 5 = .ok ([⟨[2], 2, 60⟩], c') ∧
      MemCache.size c' = 90 ∧ MemCache.count c' = 3 ∧
      getRes c'.root [1, 1] false 9 = some (some 30) ∧
      getRes c'.root [1, 2] false 9 = some (some 30) ∧
      getRes c'.root [1, 3] false 9 = some (some 30) ∧
      nodeAtQ c'.root [2] = none :=
  ⟨_, rfl, rfl, rfl, rfl, rfl, rfl, rfl⟩

/-- C6 (code bug): after one insert and `clear()`, the size is `0` and every
key reads absent, but the count accessor still reports `1`: `clear()` resets
`root[0]` and `root[2]` and leaves the count slot `root[3]` stale. -/
theorem C6_clear_bug_eval :
    MemCache.size c6after = 0 ∧ MemCache.count c6after = 1 ∧
      getRes c6after.root [1] true 5 = some none :=
  ⟨rfl, rfl, rfl⟩

/-- C9 (code bug): the partial view at `[1]` of a cache holding `[1,2] ↦ 10`
is not observationally equivalent to the cache at that prefix.  `sizeof` on
the view resolves `[...prefix, ...key]` starting at the subtree — the prefix
is applied twice — so the view reads absent where the cache reads `10`; and
`insertMany` on the view forgets the prefix entirely, storing under `[3]`
what should land under `[1,3]`. -/
theorem C9_view_bug_eval :
    MemCache.partialAt c9 [1] = .ok (some ([1], c9sub)) ∧
    PartialView.sizeofAt [1] c9sub [2] = .ok none ∧
    MemCache.sizeofAt c9 [1, 2] = .ok (some 10) ∧
    ∃ c', PartialView.insertMany estN c9 [1] [([3], 7)] true 2 = .ok (7, c') ∧
      getRes c'.root [1, 3] false 9 = some none ∧
      getRes c'.root [3] false 9 = some (some 7) :=
  ⟨rfl, rfl, rfl, _, rfl, rfl, rfl⟩

/-- C3 counterexample: with capacity `10` and immediate auto-pruning, the
insert `[1] ↦ 20` returns normally with its size, yet the deferred auto-prune
inside the same call already evicted it — the following `get` reads absent,
refuting the unconditional round-trip. -/
theorem C3_counterexample :
    ∃ c', MemCache.insertOne estN c3base [1] 20 true 0 = .ok (some 20, c') ∧
      getRes c'.root [1] true 1 = some none :=
  ⟨_, rfl, rfl⟩

/-- C3 witness: the amended round-trip at the concrete no-capacity cache. -/
theorem C3_round_trip_amended_witness :
    (∀ (k : List Nat) (v : Nat) (now now' : Nat) (touch : Bool) (szr : Option Int)
        (c' : Cache Nat Nat),
        k ≠ [] → MemCache.insertOne estN cNil k v true now = .ok (szr, c') →
        ∃ c'', MemCache.get c' k touch now' = .ok (some v, c'')) ∧
    (∀ (k : List Nat) (now' : Nat) (touch : Bool) (c' : Cache Nat Nat),
        nodupN cNil.root = true → cNil.root.isBranchN = true →
        MemCache.deleteOne cNil k = .ok c' →
        ∃ c'', MemCache.get c' k touch now' = .ok (none, c'')) :=
  C3_round_trip_amended estN cNil rfl

/-- C4 counterexample: with `pruneDepth = 0`, capacity `10` and a stored size
of `20`, `prune()` returns normally but evicts nothing — the sole prunable
unit is the root, whose empty-path deletion is a no-op — so the size stays at
`20`, above capacity, refuting the unconditional capacity-enforcement claim. -/
theorem C4_counterexample :
    ∃ ds c', MemCache.prune c4zero 5 = .ok (ds, c') ∧
      c'.capacity = some 10 ∧ MemCache.size c' = 20 :=
  ⟨_, _, rfl, rfl, rfl⟩

/-- C4 witness: the amended prune specification at the concrete two-leaf
cache `c4w` (capacity `25`, size `30`, leaf `[2]` least recently touched). -/
theorem C4_prune_amended_witness :
    ∃ j c2,
      MemCache.prune c4w 9 =
        .ok ((MemCache.sortByAtime (MemCache.flatten c4w.pruneDepth c4w.root [])).take j, c2) ∧
      (MemCache.sortByAtime (MemCache.flatten c4w.pruneDepth c4w.root [])).Pairwise
        (fun u v => u.atime ≤ v.atime) ∧
      (∀ ts, (MemCache.sortByAtime (MemCache.flatten c4w.pruneDepth c4w.root [])).filter
          (fun x => x.atime == ts) =
        (MemCache.flatten c4w.pruneDepth c4w.root []).filter (fun x => x.atime == ts)) ∧
      MemCache.size c2 = MemCache.size c4w -
        sumUnits ((MemCache.sortByAtime (MemCache.flatten c4w.pruneDepth c4w.root [])).take j) ∧
      MemCache.size c2 ≤ 25 ∧
      (∀ i, i < j → 25 < MemCache.size c4w -
        sumUnits ((MemCache.sortByAtime (MemCache.flatten c4w.pruneDepth c4w.root [])).take i)) ∧
      c2.lastPruneAt = 9 :=
  C4_prune_amended c4w 9 25 rfl (by decide) (by decide) (by decide) rfl rfl rfl

/-- C7 counterexample: with capacity `10` and a `100`-tick debounce, the
over-capacity leaf `[1] ↦ 20` survives its own insert; a later
`insertOne([1], 5, replace := false)` is a no-op as an insert and returns
`null`, yet the `finally` block fires the now-due auto-prune, which evicts
the stored value — the previously stored value is not left intact. -/
theorem C7_counterexample :
    getRes c7mid.root [1] false 50 = some (some 20) ∧
    ∃ c', MemCache.insertOne estN c7mid [1] 5 false 100 = .ok (none, c') ∧
      getRes c'.root [1] false 101 = some none :=
  ⟨rfl, _, rfl, rfl⟩

/-- C7 witness: the amended no-op property at a concrete no-capacity cache
holding the leaf `[1] ↦ 10`. -/
theorem C7_replace_false_noop_amended_witness :
    ∃ c', MemCache.insertOne estN c7leaf [1] 7 false 3 = .ok (none, c') ∧
      stripA c'.root = stripA c7leaf.root :=
  C7_replace_false_noop_amended estN c7leaf rfl [1] 7 10 0 10 3 rfl

/-- C8 counterexample: `deleteOne` never reads the clock — deleting `[1]`
from a cache whose root was last stamped at time `1` leaves the root's (and
the surviving sibling's) access time at `1`, refuting the claim that every
traversing operation stamps the nodes it passes with the current time. -/
theorem C8_counterexample :
    c8mid.root.atimeN = 1 ∧
    ∃ c', MemCache.deleteOne c8mid [1] = .ok c' ∧ c'.root.atimeN = 1 ∧
      nodeAtQ c'.root [2] = some (.leaf 5 1 5) :=
  ⟨rfl, _, rfl, rfl, rfl⟩

/-- C10 counterexample: an empty-key `insertOne` stores nothing, yet its
`finally` block fires the due auto-prune, which evicts the over-capacity
leaf: the aggregates are not unchanged. -/
theorem C10_counterexample :
    MemCache.size c7mid = 20 ∧
    ∃ c', MemCache.insertOne estN c7mid [] 5 true 100 = .ok (none, c') ∧
      MemCache.size c' = 0 :=
  ⟨rfl, _, rfl, rfl⟩

/-- C10 witness: the amended empty-key no-op at the concrete no-capacity
cache. -/
theorem C10_empty_key_amended_witness :
    (∀ (v : Nat) (r : Bool) (now : Nat),
        MemCache.insertOne estN cNil [] v r now = .ok (none, cNil)) ∧
    (∀ (touch : Bool) (now : Nat),
        ∃ c', MemCache.get cNil [] touch now = .ok (none, c') ∧
          stripA c'.root = stripA cNil.root) ∧
    MemCache.deleteOne cNil [] = .ok cNil :=
  C10_empty_key_amended estN cNil rfl rfl

end Claims



end MemCacheSpec
